import Mathlib

/-!
Shallow embedding of the work-tracking engine of the `punch` repository:
the event data model (`src/models.rs`), time handling (`src/time.rs`),
the punch-direction state machine and punch submission (`src/db.rs`),
and summary-report generation (`src/report.rs`).

Conventions of the embedding:
* Timestamps (`chrono::NaiveDateTime`) are integers counting minutes; a day is
  1440 minutes.  Day numbers count days of the proleptic Gregorian calendar
  with day 0 = 0001-01-01, which is a Monday, so the weekday index from
  Monday of day `d` is `d % 7`.  The local date of a local timestamp `t` is
  `t / 1440` (Lean's `/` on `Int` is floor division for positive divisors).
* `chrono::Duration` values are integers in minutes.
* The local time zone (`chrono::Local`) is modelled as a step function from
  UTC instants to UTC offsets, given by an initial offset plus a finite
  ascending list of transitions, as in the tz database; daylight-saving
  means the offset genuinely depends on the instant.
* The database is modelled as the event list of the single project, ascending
  by `clock`; SQL queries become list filters.
* `warn!` diagnostics are collected in a list; `unreachable!()` is modelled
  by a `panicked` flag.
* Loops whose bound is not structural are run on an explicit iteration count
  (`Nat` fuel); theorems show the fuel is never exhausted on the inputs the
  program produces.
-/

namespace Punch

/-- Event type stored in the events table (`src/models.rs`, `enum EventType`). -/
inductive EventType where
  | In
  | Out
  | Note
deriving DecidableEq, Repr

/-- Punch direction: the subset of `EventType` with only in and out
(`src/models.rs`, `enum PunchDirection`). -/
inductive PunchDirection where
  | In
  | Out
deriving DecidableEq, Repr

/-- Conversion `From<PunchDirection> for EventType` (`src/models.rs`). -/
def PunchDirection.toEventType : PunchDirection → EventType
  | .In => .In
  | .Out => .Out

/-- A stored event (`src/models.rs`, `struct Event`): an event type plus a UTC
timestamp in minutes.  The `id` and `project_id` fields are omitted: the
engine operates on a single project's event stream. -/
structure Event where
  event_type : EventType
  clock : Int
deriving DecidableEq, Repr

/-- Error type (`src/db.rs`, `enum DatabaseError`), with payloads dropped.
`BadState` is the punch state-mismatch error, `BadTime` the local-time
conversion error, `BadProject` the missing-project error. -/
inductive DatabaseError where
  | Diesel
  | Password
  | BadState
  | BadTime
  | BadProject
deriving DecidableEq, Repr

/-! ### Time zone model (`chrono::Local` as used by `src/time.rs`) -/

/-- The local time zone: an initial UTC offset (minutes) and a finite list of
transitions `(instant, offset)`, meaning that from the given UTC instant on
the offset is the given value.  The list is intended ascending by instant
(`SortedTZ`). -/
structure TimeZone where
  initOffset : Int
  transitions : List (Int × Int)
deriving Repr

/-- Offset lookup: scan the transition list for the last transition at or
before `u`; `cur` is the offset in force before the remaining transitions. -/
def offsetFrom : Int → List (Int × Int) → Int → Int
  | cur, [], _ => cur
  | cur, (t, o) :: rest, u => if u < t then cur else offsetFrom o rest u

/-- The UTC offset of the local time zone at UTC instant `u`. -/
def offsetAt (tz : TimeZone) (u : Int) : Int :=
  offsetFrom tz.initOffset tz.transitions u

/-- Convert a UTC timestamp to a local timestamp
(`src/time.rs`, `to_local`): apply the offset in force at that instant. -/
def to_local (tz : TimeZone) (u : Int) : Int := u + offsetAt tz u

/-- Left-bound check for a time-zone segment: `none` is unbounded below. -/
def loOk : Option Int → Int → Bool
  | none, _ => true
  | some a, u => a ≤ u

/-- All UTC instants whose local representation is `L`: one candidate per
time-zone segment, kept when it falls inside that segment.  `cur` is the
offset of the current segment and `lo` its left bound. -/
def candFrom : Int → Int → Option Int → List (Int × Int) → List Int
  | L, cur, lo, [] => if loOk lo (L - cur) then [L - cur] else []
  | L, cur, lo, (t, o) :: rest =>
      (if loOk lo (L - cur) && decide (L - cur < t) then [L - cur] else []) ++
        candFrom L o (some t) rest

/-- The UTC preimages of the local timestamp `L` under the time zone `tz`;
this is the candidate set behind `chrono`'s
`Local.from_local_datetime`, whose result is `None`, `Single` or `Ambiguous`
according to the number of preimages. -/
def localCandidates (tz : TimeZone) (L : Int) : List Int :=
  candFrom L tz.initOffset none tz.transitions

/-- Convert a local timestamp to UTC (`src/time.rs`, `to_utc`): a unique
preimage is returned, and both the skipped-hour case (no preimage) and the
repeated-hour case (two preimages) yield `DatabaseError::BadTime`. -/
def to_utc (tz : TimeZone) (L : Int) : Except DatabaseError Int :=
  match localCandidates tz L with
  | [] => .error .BadTime
  | [u] => .ok u
  | _ => .error .BadTime

/-- Well-formedness of a time zone: transitions strictly ascend. -/
def SortedTZ (tz : TimeZone) : Prop :=
  List.Pairwise (fun a b => a.1 < b.1) tz.transitions

/-! ### Work time and intervals (`src/time.rs`) -/

/-- Gross and net work durations, in minutes (`src/time.rs`,
`struct WorkTime`; the `Elapsed` display newtype is dropped). -/
structure WorkTime where
  gross : Int
  net : Int
deriving DecidableEq, Repr

/-- Constructor `WorkTime::new`: zero gross and net. -/
def WorkTime.new : WorkTime := ⟨0, 0⟩

/-- Constructor `WorkTime::from_duration`: net is gross minus overhead, clamped at zero
when the overhead exceeds the gross duration. -/
def WorkTime.from_duration (gross overhead : Int) : WorkTime :=
  { gross := gross
    net := if overhead > gross then 0 else gross - overhead }

/-- Componentwise accumulation (`impl AddAssign for WorkTime`). -/
instance : Add WorkTime := ⟨fun a b => ⟨a.gross + b.gross, a.net + b.net⟩⟩

/-- A reconstructed work session (`src/time.rs`, `struct Interval`): a local
start timestamp and its work time. -/
structure Interval where
  start : Int
  work_time : WorkTime
deriving DecidableEq, Repr

/-- Constructor `Interval::new`: start is kept, the work time is computed from the
duration `stop - start` and the overhead. -/
def Interval.new (start stop overhead : Int) : Interval :=
  { start := start, work_time := WorkTime.from_duration (stop - start) overhead }

/-! ### Interval reconstruction (`src/report.rs`, `summary_report`, event loop) -/

/-- State of the reconstruction loop in `summary_report`
(`src/report.rs` lines 80-120): the expected next type, the pending in-event,
the lead-in flag, the emitted intervals, the `warn!` diagnostics, and a flag
recording whether the `unreachable!()` branch was hit. -/
structure RecState where
  expected : EventType
  last_in : Option Event
  lead_in : Bool
  intervals : List Interval
  diags : List Event
  panicked : Bool
deriving DecidableEq, Repr

/-- Initial loop state: expect `In`, no pending in-event, lead-in active. -/
def initState : RecState := ⟨.In, none, true, [], [], false⟩

/-- One iteration of the reconstruction loop (`src/report.rs` lines 85-120):
leading out-events are dropped silently, non-in/out events are dropped,
events of unexpected type are dropped with a diagnostic, an accepted in-event
becomes pending, and an accepted out-event closes the pending in-event into
an interval over local timestamps. -/
def recStep (tz : TimeZone) (overhead : Int) (st : RecState) (e : Event) : RecState :=
  if st.lead_in && (e.event_type == .Out) then st
  else if e.event_type != .In && e.event_type != .Out then st
  else if e.event_type != st.expected then { st with diags := st.diags ++ [e] }
  else
    let st1 := { st with lead_in := false }
    match e.event_type with
    | .In => { st1 with last_in := some e, expected := .Out }
    | .Out =>
        match st1.last_in with
        | some p =>
            { st1 with
              last_in := none
              expected := .In
              intervals := st1.intervals ++
                [Interval.new (to_local tz p.clock) (to_local tz e.clock) overhead] }
        | none => { st1 with panicked := true }
    | .Note => st1

/-- The reconstruction loop over a whole event list. -/
def recRun (tz : TimeZone) (overhead : Int) (st : RecState) (events : List Event) : RecState :=
  events.foldl (recStep tz overhead) st

/-- The full interval list of `summary_report`: the loop's closed intervals,
plus one open interval ending at the second wall-clock sample `now2L`
(`src/report.rs` lines 122-130, `Local::now().naive_local()`) when an
in-event is still pending. -/
def summaryIntervals (tz : TimeZone) (overhead : Int) (events : List Event) (now2L : Int) :
    List Interval :=
  let st := recRun tz overhead initState events
  st.intervals ++
    (match st.last_in with
     | some e => [Interval.new (to_local tz e.clock) now2L overhead]
     | none => [])

/-! ### Calendar arithmetic (`chrono` `NaiveDate`, `Weekday`, `IsoWeek` as used
by `src/report.rs`) -/

/-- Days of the proleptic Gregorian calendar strictly before year `y`,
counted from day 0 = 0001-01-01 (Gregorian leap rule). -/
def daysBeforeYear (y : Int) : Int :=
  365 * (y - 1) + (y - 1) / 4 - (y - 1) / 100 + (y - 1) / 400

/-- The calendar year containing day `d`: an estimate from the 400-year cycle
(146097 days), corrected by at most one year in each direction (the estimate
`(400 * d) / 146097 + 1` is shown by `yearOf_spec` to be off by at most
one). -/
def yearOf (d : Int) : Int :=
  if d < daysBeforeYear ((400 * d) / 146097 + 1) then (400 * d) / 146097
  else if daysBeforeYear ((400 * d) / 146097 + 2) ≤ d then (400 * d) / 146097 + 2
  else (400 * d) / 146097 + 1

/-- The Monday at or before day `d`; models the decrement loop
`while day.weekday() != Weekday::Mon { day -= 1 }` of `src/report.rs`
(day 0 is a Monday, so the weekday index from Monday is `d % 7`). -/
def mondayOnOrBefore (d : Int) : Int := d - d % 7

/-- The ISO 8601 week `(year, week)` of day `d` (`chrono`'s
`NaiveDate::iso_week`): the ISO year and week are those of the Thursday of
`d`'s Monday-based week; week 1 is the week of the year's first Thursday. -/
def isoWeekOf (d : Int) : Int × Int :=
  (yearOf (mondayOnOrBefore d + 3),
   (mondayOnOrBefore d + 3 - daysBeforeYear (yearOf (mondayOnOrBefore d + 3))) / 7 + 1)

/-- The Monday of a given ISO week (`NaiveDate::from_isoywd(y, w, Mon)`):
the Monday of the week containing January 4 of year `y`, advanced by whole
weeks. -/
def fromIsoWeekMonday (w : Int × Int) : Int :=
  mondayOnOrBefore (daysBeforeYear w.1 + 3) + 7 * (w.2 - 1)

/-- Strict lexicographic order on ISO weeks (`chrono::IsoWeek`'s `Ord`). -/
def wLt (a b : Int × Int) : Prop := a.1 < b.1 ∨ (a.1 = b.1 ∧ a.2 < b.2)

/-- Lexicographic order on ISO weeks (`chrono::IsoWeek`'s `Ord`). -/
def wLe (a b : Int × Int) : Prop := a.1 < b.1 ∨ (a.1 = b.1 ∧ a.2 ≤ b.2)

instance : DecidableRel wLt := fun a b => by unfold wLt; infer_instance

instance : DecidableRel wLe := fun a b => by unfold wLe; infer_instance

/-! ### Day and week maps (`BTreeMap` of `src/report.rs` as sorted association
lists; `WorkTime::flatten_map` is then the identity) -/

/-- Operation `map.entry(k).or_insert(WorkTime::new()) += w` on a sorted association
list ordered by the strict order `lt` (the `BTreeMap` key order). -/
def mapAdd {K : Type} [DecidableEq K] (lt : K → K → Prop) [DecidableRel lt] :
    List (K × WorkTime) → K → WorkTime → List (K × WorkTime)
  | [], k, w => [(k, WorkTime.new + w)]
  | (k', v) :: rest, k, w =>
      if lt k k' then (k, WorkTime.new + w) :: (k', v) :: rest
      else if k = k' then (k', v + w) :: rest
      else (k', v) :: mapAdd lt rest k w

/-- Operation `map.entry(k).or_insert(WorkTime::new())` (zero fill) on a sorted
association list. -/
def mapZero {K : Type} [DecidableEq K] (lt : K → K → Prop) [DecidableRel lt] :
    List (K × WorkTime) → K → List (K × WorkTime)
  | [], k => [(k, WorkTime.new)]
  | (k', v) :: rest, k =>
      if lt k k' then (k, WorkTime.new) :: (k', v) :: rest
      else if k = k' then (k', v) :: rest
      else (k', v) :: mapZero lt rest k

/-- The keys of an association list. -/
def keysOf {K : Type} (m : List (K × WorkTime)) : List K := m.map Prod.fst

/-- Allocation of work time to days and weeks (`src/report.rs` lines 132-145):
each interval is allocated to the day bucket of its start date and to the
week bucket of that date's ISO week, in one pass. -/
def allocGo : List Interval →
    List (Int × WorkTime) × List ((Int × Int) × WorkTime) →
    List (Int × WorkTime) × List ((Int × Int) × WorkTime)
  | [], ms => ms
  | i :: rest, ms =>
      allocGo rest
        (mapAdd (· < ·) ms.1 (i.start / 1440) i.work_time,
         mapAdd wLt ms.2 (isoWeekOf (i.start / 1440)) i.work_time)

/-- The day and week maps of a report, starting from empty maps. -/
def allocMaps (intervals : List Interval) :
    List (Int × WorkTime) × List ((Int × Int) × WorkTime) :=
  allocGo intervals ([], [])

/-- The day fill loop body, run a fixed number of times: models
`while day <= today { day_map.entry(day).or_insert(new); day = day.succ() }`
(`src/report.rs` lines 147-152), which runs once per day of
`[start_day, today]`. -/
def fillDaysGo : Nat → Int → List (Int × WorkTime) → List (Int × WorkTime)
  | 0, _, m => m
  | n + 1, d, m => fillDaysGo n (d + 1) (mapZero (· < ·) m d)

/-- Fill every date from `start` through `today` inclusive with a zero bucket
if absent. -/
def fillDays (today start : Int) (m : List (Int × WorkTime)) : List (Int × WorkTime) :=
  fillDaysGo (today + 1 - start).toNat start m

/-- The week fill loop (`src/report.rs` lines 154-161), on explicit fuel:
starting from `start_day`'s ISO week, insert a zero bucket and step to the
ISO week of the following Monday (reconstructed through
`NaiveDate::from_isoywd`, which is what makes the step cross year
boundaries correctly), while the week is at most `today`'s ISO week. -/
def fillWeeks (todayW : Int × Int) :
    Nat → Int × Int → List ((Int × Int) × WorkTime) → List ((Int × Int) × WorkTime)
  | 0, _, m => m
  | fuel + 1, w, m =>
      if wLe w todayW then
        fillWeeks todayW fuel (isoWeekOf (fromIsoWeekMonday w + 7)) (mapZero wLt m w)
      else m

/-! ### The summary report pipeline (`src/report.rs`, `summary_report`) -/

/-- The report data the claims are about (`struct SummaryReport` without
`next_direction` and `recent_events`): day buckets and ISO-week buckets,
most recent first. -/
structure SummaryReport where
  days : List (Int × WorkTime)
  weeks : List ((Int × Int) × WorkTime)
deriving DecidableEq, Repr

/-- Function `summary_report` (`src/report.rs`), over: the local time zone, the
project's full event history ascending by clock, the project's overhead in
minutes, and the two wall-clock samples the source takes — `now1L` for
`Local::now().naive_local().date()` at line 61 (used for `today` and the
window start) and `now2L` for `Local::now().naive_local()` at line 126 (used
as the open interval's end).  Database loading, `next_direction` and
`recent_events` are omitted. -/
def report_body (tz : TimeZone) (history : List Event) (overhead : Int)
    (now1L now2L start_utc : Int) : SummaryReport :=
  let today := now1L / 1440
  let start_day := mondayOnOrBefore (today - 35)
  let events := history.filter (fun e =>
    (e.event_type == EventType.In || e.event_type == EventType.Out) &&
      decide (start_utc ≤ e.clock))
  let intervals := summaryIntervals tz overhead events now2L
  let ms := allocMaps intervals
  let day_map := fillDays today start_day ms.1
  let week_map := fillWeeks (isoWeekOf today) 10 (isoWeekOf start_day) ms.2
  let keep_days := (today % 7 + 1).toNat
  let days := if keep_days < day_map.length
    then day_map.drop (day_map.length - keep_days)
    else day_map
  { days := days.reverse, weeks := week_map.reverse }

def summary_report (tz : TimeZone) (history : List Event) (overhead : Int)
    (now1L now2L : Int) : Except DatabaseError SummaryReport :=
  match to_utc tz (mondayOnOrBefore (now1L / 1440 - 35) * 1440) with
  | .error e => .error e
  | .ok start_utc => .ok (report_body tz history overhead now1L now2L start_utc)

/-! ### Punch state machine (`src/db.rs`) -/

/-- The in/out filter of the event queries in `src/db.rs`. -/
def isInOutEvent (e : Event) : Bool :=
  e.event_type == .In || e.event_type == .Out

/-- Function `next_expected_punch_direction` (`src/db.rs` lines 411-433): the most
recent in/out event decides; its `Some(Note) => unreachable!()` arm is
modelled as `.In` and shown unreachable in theorem `C4`. -/
def next_expected_punch_direction (history : List Event) : PunchDirection :=
  match (history.filter isInOutEvent).getLast? with
  | none => .In
  | some e =>
      match e.event_type with
      | .In => .Out
      | .Out => .In
      | .Note => .In

/-- The punch command handler (`src/db.rs`, `Handler<PunchCommand>`,
lines 438-465): reject with `BadState` when the proposed direction differs
from the next expected one, otherwise append one event stamped with the
current UTC instant.  The result pairs the event store after the call with
the returned error, if any. -/
def punch_handle (history : List Event) (dir : PunchDirection) (nowUtc : Int) :
    List Event × Option DatabaseError :=
  if dir ≠ next_expected_punch_direction history then (history, some .BadState)
  else (history ++ [⟨dir.toEventType, nowUtc⟩], none)

/-! ### Helper predicates and accessors used by the theorems -/

/-- A well-formed alternating event sequence `[In, Out, In, Out, …]`,
possibly ending after an `In`. -/
def isAltIn : List Event → Bool
  | [] => true
  | [a] => a.event_type == .In
  | a :: b :: rest => a.event_type == .In && (b.event_type == .Out && isAltIn rest)

/-- Consecutive (in, out) pairs of an alternating sequence. -/
def pairsOf : List Event → List (Event × Event)
  | a :: b :: rest => (a, b) :: pairsOf rest
  | _ => []

/-- The trailing unpaired event of an odd-length sequence. -/
def pendingOf : List Event → Option Event
  | [] => none
  | [a] => some a
  | _ :: _ :: rest => pendingOf rest

/-- The event list is ascending by clock. -/
def ascendingB : List Event → Bool
  | [] => true
  | [_] => true
  | a :: b :: rest => decide (a.clock ≤ b.clock) && ascendingB (b :: rest)

/-- A well-formed work time: non-negative gross and net, net at most gross. -/
def GoodWT (w : WorkTime) : Prop := 0 ≤ w.gross ∧ 0 ≤ w.net ∧ w.net ≤ w.gross

/-- Number of week buckets of a report, 0 on error. -/
def weeksLengthOf : Except DatabaseError SummaryReport → Nat
  | .ok r => r.weeks.length
  | .error _ => 0

/-- Number of day buckets of a report, 0 on error. -/
def daysLengthOf : Except DatabaseError SummaryReport → Nat
  | .ok r => r.days.length
  | .error _ => 0

/-- Whether report generation succeeded. -/
def isOkReport : Except DatabaseError SummaryReport → Bool
  | .ok _ => true
  | .error _ => false

/-- The produced report, or an empty one on error. -/
def reportOf : Except DatabaseError SummaryReport → SummaryReport
  | .ok r => r
  | .error _ => ⟨[], []⟩

/-- Gross minutes of the most recent day bucket of a report, 0 on error. -/
def firstDayGross : Except DatabaseError SummaryReport → Int
  | .ok r => (r.days.headD (0, WorkTime.new)).2.gross
  | .error _ => 0

/-! ### C2: work-time arithmetic -/

/-- C2: for every start, end and overhead, the work time computed by
`Interval::new` via `WorkTime::from_duration` has `gross = end - start` and
`net = max 0 (gross - overhead)`; in particular net is never negative. -/
theorem C2_theorem (start stop overhead : Int) :
    (Interval.new start stop overhead).work_time.gross = stop - start ∧
    (Interval.new start stop overhead).work_time.net = max 0 (stop - start - overhead) ∧
    0 ≤ (Interval.new start stop overhead).work_time.net := by
  unfold Interval.new WorkTime.from_duration
  refine ⟨rfl, ?_, ?_⟩ <;> simp only [gt_iff_lt] <;> split <;> omega

/-! ### The reconstruction-loop invariant (C9) -/

/-- The loop invariant: whenever an out-event is expected a pending in-event
is stored, and the `unreachable!()` branch has not been hit. -/
def RecInv (st : RecState) : Prop :=
  (st.expected = .Out → st.last_in.isSome = true) ∧ st.panicked = false

theorem recStep_inv (tz : TimeZone) (ov : Int) (st : RecState) (e : Event)
    (h : RecInv st) : RecInv (recStep tz ov st e) := by
  obtain ⟨h1, h2⟩ := h
  unfold RecInv recStep
  cases he : e.event_type <;> cases hex : st.expected <;> cases hl : st.lead_in <;>
    simp_all <;>
    (try cases hli : st.last_in) <;> simp_all

theorem recRun_inv (tz : TimeZone) (ov : Int) (st : RecState) (events : List Event)
    (h : RecInv st) : RecInv (recRun tz ov st events) := by
  induction events generalizing st with
  | nil => exact h
  | cons e rest ih => exact ih _ (recStep_inv tz ov st e h)

/-- C9: for every input event sequence, the reconstruction loop maintains the
invariant that whenever the expected type is `Out` a pending in-event is
stored, and the `unreachable!()` branch of the out-arm is never executed
(the `panicked` flag of the model stays false). -/
theorem C9_theorem (tz : TimeZone) (ov : Int) (events : List Event) :
    ((recRun tz ov initState events).expected = .Out →
      (recRun tz ov initState events).last_in.isSome = true) ∧
    (recRun tz ov initState events).panicked = false := by
  have h : RecInv initState := by constructor <;> simp [initState]
  exact recRun_inv tz ov initState events h

/-- Witness for C9 at a concrete input whose final expected type is `Out`. -/
theorem C9_witness :
    (recRun ⟨0, []⟩ 0 initState [⟨.In, 0⟩]).last_in.isSome = true ∧
    (recRun ⟨0, []⟩ 0 initState [⟨.In, 0⟩]).panicked = false :=
  ⟨(C9_theorem ⟨0, []⟩ 0 [⟨.In, 0⟩]).1 (by decide), (C9_theorem ⟨0, []⟩ 0 [⟨.In, 0⟩]).2⟩

/-! ### C6: discard behaviour of the reconstruction loop -/

/-- C6: a leading out-event (while in lead-in state) is discarded with no
interval, no diagnostic and no state change at all; and any in/out event
after that whose type differs from the expected type is discarded with
exactly one diagnostic, leaving the expected direction, the pending
in-event, the intervals and the lead-in flag unchanged. -/
theorem C6_theorem (tz : TimeZone) (ov : Int) (st : RecState) (e : Event) :
    (st.lead_in = true → e.event_type = .Out → recStep tz ov st e = st) ∧
    (e.event_type ≠ EventType.Note → ¬(st.lead_in = true ∧ e.event_type = .Out) →
      e.event_type ≠ st.expected →
      recStep tz ov st e = { st with diags := st.diags ++ [e] }) := by
  constructor
  · intro h1 h2
    unfold recStep
    simp [h1, h2]
  · intro h1 h2 h3
    unfold recStep
    cases he : e.event_type <;> cases hex : st.expected <;> cases hl : st.lead_in <;>
      simp_all

/-- Witness for C6: a leading `Out` at minute 5 is dropped silently from the
initial state, and an `Out` at minute 7 arriving while `In` is expected
after lead-in is recorded as a diagnostic only. -/
theorem C6_witness :
    recStep ⟨0, []⟩ 0 initState ⟨.Out, 5⟩ = initState ∧
    recStep ⟨0, []⟩ 0 ⟨.In, none, false, [], [], false⟩ ⟨.Out, 7⟩ =
      ⟨.In, none, false, [], [⟨.Out, 7⟩], false⟩ := by
  constructor
  · exact (C6_theorem ⟨0, []⟩ 0 initState ⟨.Out, 5⟩).1 rfl rfl
  · have h := (C6_theorem ⟨0, []⟩ 0 ⟨.In, none, false, [], [], false⟩ ⟨.Out, 7⟩).2
      (by decide) (by simp) (by decide)
    simpa using h

/-! ### C3: the open interval -/

/-- C3 (amended): when the reconstruction ends with a pending in-event,
`summary_report` emits exactly one additional open interval, whose end is the
wall-clock sample taken when the open interval is constructed (the second
`Local::now()` call, `now2L`), not the sample taken at the start of report
generation; when no in-event is pending, no open interval is emitted. -/
theorem C3_theorem (tz : TimeZone) (ov : Int) (events : List Event) (now2L : Int) :
    (∀ e, (recRun tz ov initState events).last_in = some e →
      summaryIntervals tz ov events now2L =
        (recRun tz ov initState events).intervals ++
          [Interval.new (to_local tz e.clock) now2L ov]) ∧
    ((recRun tz ov initState events).last_in = none →
      summaryIntervals tz ov events now2L = (recRun tz ov initState events).intervals) := by
  constructor
  · intro e he
    unfold summaryIntervals
    simp only [he]
  · intro he
    unfold summaryIntervals
    simp only [he, List.append_nil]

/-- Counterexample to C3 as stated: with the history `[In at minute 0]`, the
start-of-report sample at minute 100 and the open-interval sample at minute
200, the open interval's gross duration (visible as the day bucket's gross)
is `200 - 0`, not `100 - 0`: the end is not the instant derived at the start
of report generation. -/
theorem C3_counterexample :
    ¬ (∀ now1L now2L : Int,
        firstDayGross (summary_report ⟨0, []⟩ [⟨.In, 0⟩] 0 now1L now2L) = now1L - 0) := by
  intro h
  have h100 := h 100 200
  revert h100
  decide

/-- Witness for C3 at a concrete pending input. -/
theorem C3_witness :
    (recRun ⟨0, []⟩ 0 initState [⟨.In, 5⟩]).last_in = some ⟨.In, 5⟩ ∧
    summaryIntervals ⟨0, []⟩ 0 [⟨.In, 5⟩] 50 = [Interval.new 5 50 0] := by
  refine ⟨by decide, ?_⟩
  have h := (C3_theorem ⟨0, []⟩ 0 [⟨.In, 5⟩] 50).1 ⟨.In, 5⟩ (by decide)
  rw [h]
  decide

/-! ### C4: the next expected punch direction -/

theorem mem_of_getLast?_eq {α : Type _} {l : List α} {a : α}
    (h : l.getLast? = some a) : a ∈ l := by
  cases l with
  | nil => simp at h
  | cons x xs =>
    have hg := List.getLast?_eq_getLast (x :: xs) (by simp)
    rw [hg] at h
    have h2 : (x :: xs).getLast (by simp) = a := by injection h
    rw [← h2]
    exact List.getLast_mem _

/-- C4: `next_expected_punch_direction` considers only the single most recent
in/out event: with no such event it returns `In`; with a most recent in/out
event it returns `Out` after `In` and `In` after `Out` (and that event is
never a note, so the `unreachable!()` arm is dead); appending a note does not
change the result; and any two histories sharing the same final in/out event
agree. -/
theorem C4_theorem (history : List Event) :
    ((history.filter isInOutEvent).getLast? = none →
      next_expected_punch_direction history = .In) ∧
    (∀ e, (history.filter isInOutEvent).getLast? = some e →
      e.event_type ≠ EventType.Note ∧
      next_expected_punch_direction history =
        (if e.event_type = EventType.In then .Out else .In)) ∧
    (∀ n : Event, n.event_type = EventType.Note →
      next_expected_punch_direction (history ++ [n]) =
        next_expected_punch_direction history) ∧
    (∀ (h2 : List Event) (e : Event), isInOutEvent e = true →
      next_expected_punch_direction (history ++ [e]) =
        next_expected_punch_direction (h2 ++ [e])) := by
  refine ⟨?_, ?_, ?_, ?_⟩
  · intro h
    unfold next_expected_punch_direction
    rw [h]
  · intro e he
    have hmem : e ∈ history.filter isInOutEvent := mem_of_getLast?_eq he
    have hio : isInOutEvent e = true := (List.mem_filter.mp hmem).2
    unfold isInOutEvent at hio
    constructor
    · intro hn
      rw [hn] at hio
      simp at hio
    · unfold next_expected_punch_direction
      rw [he]
      cases ht : e.event_type <;> simp_all
  · intro n hn
    unfold next_expected_punch_direction
    rw [List.filter_append]
    have : [n].filter isInOutEvent = [] := by
      simp [isInOutEvent, hn]
    rw [this, List.append_nil]
  · intro h2 e he
    unfold next_expected_punch_direction
    rw [List.filter_append, List.filter_append]
    have : [e].filter isInOutEvent = [e] := by simp [he]
    rw [this, List.getLast?_concat, List.getLast?_concat]

/-- Witness for C4: concrete histories exercising each rule. -/
theorem C4_witness :
    next_expected_punch_direction [Event.mk .In 1] = .Out ∧
    next_expected_punch_direction [Event.mk .In 1, Event.mk .Note 2] =
      next_expected_punch_direction [Event.mk .In 1] ∧
    next_expected_punch_direction ([] : List Event) = .In := by
  refine ⟨?_, ?_, ?_⟩
  · have h := ((C4_theorem [Event.mk .In 1]).2.1 (Event.mk .In 1) (by decide)).2
    simpa using h
  · exact (C4_theorem [Event.mk .In 1]).2.2.1 (Event.mk .Note 2) rfl
  · exact (C4_theorem []).1 rfl

/-! ### C5: punch submission -/

/-- C5: when the proposed direction differs from the computed next expected
direction, the punch handler returns the state-mismatch error (`BadState`)
and the event store is unchanged; when they agree, exactly one new event
carrying the proposed direction and the current UTC instant is appended and
no error is returned. -/
theorem C5_theorem (history : List Event) (dir : PunchDirection) (nowUtc : Int) :
    (dir ≠ next_expected_punch_direction history →
      punch_handle history dir nowUtc = (history, some DatabaseError.BadState)) ∧
    (dir = next_expected_punch_direction history →
      punch_handle history dir nowUtc =
        (history ++ [⟨dir.toEventType, nowUtc⟩], none)) := by
  constructor
  · intro h
    unfold punch_handle
    rw [if_pos h]
  · intro h
    unfold punch_handle
    rw [if_neg (by simp [h])]

/-- Witness for C5: on the empty history `Out` is rejected with no append,
and `In` is accepted appending one event stamped with the given instant. -/
theorem C5_witness :
    punch_handle [] .Out 42 = ([], some DatabaseError.BadState) ∧
    punch_handle [] .In 42 = ([⟨.In, 42⟩], none) := by
  constructor
  · exact (C5_theorem [] .Out 42).1 (by decide)
  · have h := (C5_theorem [] .In 42).2 (by decide)
    simpa using h

/-! ### C8: local-to-UTC conversion -/

theorem loOk_mono {lo : Option Int} {u v : Int} (h : loOk lo u = true) (huv : u ≤ v) :
    loOk lo v = true := by
  cases lo <;> simp_all [loOk] <;> omega

theorem mem_ite_singleton {α : Type _} (c : Prop) [Decidable c] (x u : α) :
    (u ∈ if c then [x] else []) ↔ (c ∧ u = x) := by
  split <;> simp_all

/-- Soundness and completeness of the candidate scan: a UTC instant is
produced for local value `L` exactly when it respects the segment bound and
its offset maps it to `L`. -/
theorem candFrom_mem (L : Int) (ts : List (Int × Int)) :
    ∀ (cur : Int) (lo : Option Int),
      List.Pairwise (fun a b => a.1 < b.1) ts →
      (∀ p ∈ ts, loOk lo p.1 = true) →
      ∀ u : Int, u ∈ candFrom L cur lo ts ↔ (loOk lo u = true ∧ u + offsetFrom cur ts u = L) := by
  induction ts with
  | nil =>
    intro cur lo _ _ u
    unfold candFrom offsetFrom
    rw [mem_ite_singleton]
    constructor
    · rintro ⟨h1, rfl⟩
      exact ⟨h1, by omega⟩
    · rintro ⟨h1, h2⟩
      have hu : u = L - cur := by omega
      subst hu
      exact ⟨h1, rfl⟩
  | cons p rest ih =>
    intro cur lo hs hlo u
    obtain ⟨t, o⟩ := p
    have hsrest := (List.pairwise_cons.mp hs).2
    have hhead : ∀ q ∈ rest, t < q.1 := (List.pairwise_cons.mp hs).1
    have hlot : loOk lo t = true := hlo (t, o) (by simp)
    have hlorest : ∀ q ∈ rest, loOk (some t) q.1 = true := by
      intro q hq
      simp only [loOk, decide_eq_true_eq]
      exact le_of_lt (hhead q hq)
    have IH := ih o (some t) hsrest hlorest u
    unfold candFrom offsetFrom
    simp only [List.mem_append, mem_ite_singleton, Bool.and_eq_true, decide_eq_true_eq, IH]
    by_cases hut : u < t
    · rw [if_pos hut]
      constructor
      · rintro (⟨⟨h1, h2⟩, rfl⟩ | ⟨h1, h2⟩)
        · exact ⟨h1, by omega⟩
        · simp only [loOk, decide_eq_true_eq] at h1
          omega
      · rintro ⟨h1, h2⟩
        left
        have hu : u = L - cur := by omega
        subst hu
        exact ⟨⟨h1, hut⟩, rfl⟩
    · rw [if_neg hut]
      constructor
      · rintro (⟨⟨h1, h2⟩, rfl⟩ | ⟨h1, h2⟩)
        · omega
        · refine ⟨?_, h2⟩
          simp only [loOk, decide_eq_true_eq] at h1
          exact loOk_mono hlot h1
      · rintro ⟨h1, h2⟩
        right
        refine ⟨?_, h2⟩
        simp only [loOk, decide_eq_true_eq]
        omega

/-- The candidate list is strictly ascending (hence duplicate-free), and all
candidates respect the segment bound. -/
theorem candFrom_sorted (L : Int) (ts : List (Int × Int)) :
    ∀ (cur : Int) (lo : Option Int),
      List.Pairwise (fun a b => a.1 < b.1) ts →
      (∀ p ∈ ts, loOk lo p.1 = true) →
      (∀ u ∈ candFrom L cur lo ts, loOk lo u = true) ∧
      List.Pairwise (· < ·) (candFrom L cur lo ts) := by
  induction ts with
  | nil =>
    intro cur lo _ _
    constructor
    · intro u hu
      unfold candFrom at hu
      rw [mem_ite_singleton] at hu
      exact hu.2 ▸ hu.1
    · unfold candFrom
      split <;> simp
  | cons p rest ih =>
    intro cur lo hs hlo
    obtain ⟨t, o⟩ := p
    have hsrest := (List.pairwise_cons.mp hs).2
    have hhead : ∀ q ∈ rest, t < q.1 := (List.pairwise_cons.mp hs).1
    have hlot : loOk lo t = true := hlo (t, o) (by simp)
    have hlorest : ∀ q ∈ rest, loOk (some t) q.1 = true := by
      intro q hq
      simp only [loOk, decide_eq_true_eq]
      exact le_of_lt (hhead q hq)
    obtain ⟨ihb, ihs⟩ := ih o (some t) hsrest hlorest
    have htail_lower : ∀ u ∈ candFrom L o (some t) rest, t ≤ u := by
      intro u hu
      have := ihb u hu
      simpa [loOk] using this
    constructor
    · intro u hu
      unfold candFrom at hu
      rw [List.mem_append, mem_ite_singleton] at hu
      simp only [Bool.and_eq_true, decide_eq_true_eq] at hu
      rcases hu with ⟨⟨h1, _⟩, rfl⟩ | hu
      · exact h1
      · exact loOk_mono hlot (htail_lower u hu)
    · unfold candFrom
      rw [List.pairwise_append]
      refine ⟨?_, ihs, ?_⟩
      · split <;> simp
      · intro a ha b hb
        rw [mem_ite_singleton] at ha
        simp only [Bool.and_eq_true, decide_eq_true_eq] at ha
        obtain ⟨⟨_, hat⟩, rfl⟩ := ha
        exact lt_of_lt_of_le hat (htail_lower b hb)

theorem localCandidates_mem (tz : TimeZone) (L : Int) (hs : SortedTZ tz) (u : Int) :
    u ∈ localCandidates tz L ↔ to_local tz u = L := by
  unfold localCandidates to_local offsetAt
  rw [candFrom_mem L tz.transitions tz.initOffset none hs (by intro p _; rfl)]
  simp [loOk]

theorem localCandidates_sorted (tz : TimeZone) (L : Int) (hs : SortedTZ tz) :
    List.Pairwise (· < ·) (localCandidates tz L) :=
  (candFrom_sorted L tz.transitions tz.initOffset none hs (by intro p _; rfl)).2

theorem to_utc_eq_of_nil (tz : TimeZone) (L : Int) (h : localCandidates tz L = []) :
    to_utc tz L = .error DatabaseError.BadTime := by
  unfold to_utc
  rw [h]

theorem to_utc_eq_of_single (tz : TimeZone) (L u0 : Int) (h : localCandidates tz L = [u0]) :
    to_utc tz L = .ok u0 := by
  unfold to_utc
  rw [h]

theorem to_utc_eq_of_pair (tz : TimeZone) (L u0 u1 : Int) (tail : List Int)
    (h : localCandidates tz L = u0 :: u1 :: tail) :
    to_utc tz L = .error DatabaseError.BadTime := by
  unfold to_utc
  rw [h]

/-- Characterization of `to_utc` success: it returns `u` exactly when `u` is
the unique UTC preimage of `L`. -/
theorem to_utc_ok_iff (tz : TimeZone) (L : Int) (hs : SortedTZ tz) (u : Int) :
    to_utc tz L = .ok u ↔ (to_local tz u = L ∧ ∀ v, to_local tz v = L → v = u) := by
  have hmem := localCandidates_mem tz L hs
  have hsorted := localCandidates_sorted tz L hs
  rcases hc : localCandidates tz L with _ | ⟨u0, _ | ⟨u1, tail⟩⟩
  · rw [to_utc_eq_of_nil tz L hc]
    constructor
    · intro h
      cases h
    · rintro ⟨h1, _⟩
      have hm := (hmem u).mpr h1
      rw [hc] at hm
      cases hm
  · rw [to_utc_eq_of_single tz L u0 hc]
    have hu0 : to_local tz u0 = L := (hmem u0).mp (by rw [hc]; simp)
    constructor
    · intro h
      have he : u0 = u := by injection h
      subst he
      refine ⟨hu0, ?_⟩
      intro v hv
      have hm := (hmem v).mpr hv
      rw [hc] at hm
      simpa using hm
    · rintro ⟨h1, h2⟩
      rw [h2 u0 hu0]
  · rw [to_utc_eq_of_pair tz L u0 u1 tail hc]
    rw [hc] at hsorted
    have h01 : u0 < u1 := (List.pairwise_cons.mp hsorted).1 u1 (by simp)
    have hu0 : to_local tz u0 = L := (hmem u0).mp (by rw [hc]; simp)
    have hu1 : to_local tz u1 = L := (hmem u1).mp (by rw [hc]; simp)
    constructor
    · intro h
      cases h
    · rintro ⟨_, h2⟩
      have e0 := h2 u0 hu0
      have e1 := h2 u1 hu1
      omega

/-- Characterization of `to_utc` failure: it returns `BadTime` exactly when
there is not exactly one UTC preimage (no preimage, or an ambiguous pair). -/
theorem to_utc_error_iff (tz : TimeZone) (L : Int) (hs : SortedTZ tz) :
    to_utc tz L = .error DatabaseError.BadTime ↔ ¬ (∃! u : Int, to_local tz u = L) := by
  constructor
  · intro h hex
    obtain ⟨u, hu, huniq⟩ := hex
    have : to_utc tz L = .ok u := by
      rw [to_utc_ok_iff tz L hs u]
      exact ⟨hu, fun v hv => huniq v hv⟩
    rw [this] at h
    cases h
  · intro hnex
    have hmem := localCandidates_mem tz L hs
    rcases hc : localCandidates tz L with _ | ⟨u0, _ | ⟨u1, tail⟩⟩
    · exact to_utc_eq_of_nil tz L hc
    · exfalso
      apply hnex
      refine ⟨u0, (hmem u0).mp (by rw [hc]; simp), ?_⟩
      intro v hv
      have hm := (hmem v).mpr hv
      rw [hc] at hm
      simpa using hm
    · exact to_utc_eq_of_pair tz L u0 u1 tail hc

/-- C8: for every local wall-clock value, `to_utc` returns the unique
corresponding UTC instant when exactly one exists, and returns the explicit
`BadTime` error exactly when the local value has no UTC preimage (skipped
hour) or more than one (repeated hour); an ambiguous time is never silently
resolved. -/
theorem C8_theorem (tz : TimeZone) (L : Int) (hs : SortedTZ tz) :
    (∀ u : Int, to_utc tz L = .ok u ↔
      (to_local tz u = L ∧ ∀ v, to_local tz v = L → v = u)) ∧
    (to_utc tz L = .error DatabaseError.BadTime ↔ ¬ (∃! u : Int, to_local tz u = L)) :=
  ⟨to_utc_ok_iff tz L hs, to_utc_error_iff tz L hs⟩

/-- Witness for C8: a fall-back transition at minute 1 (offset drops from 60
to 0) makes local minute 30 ambiguous, yielding `BadTime`; a transition-free
zone with offset 5 maps local 30 to the unique UTC instant 25. -/
theorem C8_witness :
    to_utc ⟨60, [(1, 0)]⟩ 30 = .error DatabaseError.BadTime ∧
    to_utc ⟨5, []⟩ 30 = .ok 25 := by
  constructor
  · apply ((C8_theorem ⟨60, [(1, 0)]⟩ 30 (by simp [SortedTZ])).2).mpr
    rintro ⟨u, hu, huniq⟩
    have h1 := huniq (-30) (by decide)
    have h2 := huniq 30 (by decide)
    omega
  · apply ((C8_theorem ⟨5, []⟩ 30 (by simp [SortedTZ])).1 25).mpr
    refine ⟨by decide, ?_⟩
    intro v hv
    have hv2 : v + 5 = 30 := by simpa [to_local, offsetAt, offsetFrom] using hv
    omega

/-- A time zone with a constant offset (no transition changes the offset)
always converts successfully, to `L` minus the offset. -/
theorem to_utc_const (tz : TimeZone) (hs : SortedTZ tz)
    (hoff : ∀ u, offsetAt tz u = tz.initOffset) (L : Int) :
    to_utc tz L = .ok (L - tz.initOffset) := by
  rw [to_utc_ok_iff tz L hs]
  constructor
  · unfold to_local
    rw [hoff]
    omega
  · intro v hv
    unfold to_local at hv
    rw [hoff] at hv
    omega

/-! ### C1: reconstruction of a well-formed alternating sequence -/

/-- Running the loop from a ready state (`In` expected, nothing pending, no
panic) over a well-formed alternating sequence: each (in, out) pair becomes
one interval over the local timestamps, a trailing in-event stays pending,
and lead-in survives only on the empty input. -/
theorem recRun_alt (tz : TimeZone) (ov : Int) :
    ∀ (events : List Event), isAltIn events = true →
    ∀ (b : Bool) (I : List Interval) (D : List Event),
      recRun tz ov ⟨.In, none, b, I, D, false⟩ events =
        ⟨(match pendingOf events with | some _ => .Out | none => .In),
         pendingOf events,
         events.isEmpty && b,
         I ++ (pairsOf events).map (fun p =>
           Interval.new (to_local tz p.1.clock) (to_local tz p.2.clock) ov),
         D, false⟩
  | [], _, b, I, D => by
      simp [recRun, pendingOf, pairsOf]
  | [a], h, b, I, D => by
      have ha : a.event_type = .In := by simpa [isAltIn] using h
      simp [recRun, recStep, ha, pendingOf, pairsOf]
  | a :: b' :: rest, h, bb, I, D => by
      have h3 : a.event_type = .In ∧ b'.event_type = .Out ∧ isAltIn rest = true := by
        simpa [isAltIn, Bool.and_eq_true] using h
      obtain ⟨ha, hb, hrest⟩ := h3
      have hsteps : recRun tz ov ⟨.In, none, bb, I, D, false⟩ (a :: b' :: rest) =
          recRun tz ov
            ⟨.In, none, false,
             I ++ [Interval.new (to_local tz a.clock) (to_local tz b'.clock) ov],
             D, false⟩ rest := by
        simp [recRun, recStep, ha, hb]
      rw [hsteps,
        recRun_alt tz ov rest hrest false
          (I ++ [Interval.new (to_local tz a.clock) (to_local tz b'.clock) ov]) D]
      simp [pendingOf, pairsOf]

/-- In a well-formed alternating sequence, the number of (in, out) pairs is
the number of out-events. -/
theorem pairsOf_length_out :
    ∀ (events : List Event), isAltIn events = true →
      (pairsOf events).length =
        (events.filter (fun e => e.event_type == EventType.Out)).length
  | [], _ => by simp [pairsOf]
  | [a], h => by
      have ha : a.event_type = .In := by simpa [isAltIn] using h
      simp [pairsOf, ha]
  | a :: b' :: rest, h => by
      have h3 : a.event_type = .In ∧ b'.event_type = .Out ∧ isAltIn rest = true := by
        simpa [isAltIn, Bool.and_eq_true] using h
      obtain ⟨ha, hb, hrest⟩ := h3
      simp [pairsOf, ha, hb, pairsOf_length_out rest hrest]

/-- C1 (amended): for a well-formed alternating sequence
`[In, Out, In, Out, …]` ascending by instant, the loop emits exactly one
interval per (in, out) pair — as many as there are out-events — and the i-th
interval is `Interval::new` of the local conversions of the i-th pair, so its
start is the local conversion of the in-instant and its gross duration is the
difference of the local conversions (equal to `t_out - t_in` whenever both
instants carry the same UTC offset). -/
theorem C1_theorem (tz : TimeZone) (ov : Int) (events : List Event)
    (halt : isAltIn events = true) (hasc : ascendingB events = true) :
    (recRun tz ov initState events).intervals =
      (pairsOf events).map (fun p =>
        Interval.new (to_local tz p.1.clock) (to_local tz p.2.clock) ov) ∧
    (recRun tz ov initState events).intervals.length =
      (events.filter (fun e => e.event_type == EventType.Out)).length := by
  have hrun := recRun_alt tz ov events halt true [] []
  unfold initState
  refine ⟨?_, ?_⟩ <;> rw [hrun]
  · simp
  · simp [pairsOf_length_out events halt]

/-- Counterexample to C1 as stated: the code computes gross durations from
local timestamps, so across an offset transition (fall-back at minute 1,
offset dropping from 60 to 0) the sequence `[In at 0, Out at 1]` yields gross
`to_local 1 - to_local 0 = -59`, not `t_out - t_in = 1`. -/
theorem C1_counterexample :
    ¬ (∀ (tz : TimeZone) (ov : Int) (events : List Event),
        isAltIn events = true → ascendingB events = true →
        (recRun tz ov initState events).intervals.map (fun i => i.work_time.gross) =
          (pairsOf events).map (fun p => p.2.clock - p.1.clock)) := by
  intro h
  have hx := h ⟨60, [(1, 0)]⟩ 0 [⟨.In, 0⟩, ⟨.Out, 1⟩] (by decide) (by decide)
  revert hx
  decide

/-- Witness for C1 at a concrete alternating ascending input. -/
theorem C1_witness :
    isAltIn [Event.mk .In 0, Event.mk .Out 120] = true ∧
    ascendingB [Event.mk .In 0, Event.mk .Out 120] = true ∧
    (recRun ⟨0, []⟩ 15 initState [Event.mk .In 0, Event.mk .Out 120]).intervals =
      [Interval.new 0 120 15] ∧
    (recRun ⟨0, []⟩ 15 initState [Event.mk .In 0, Event.mk .Out 120]).intervals.length = 1 := by
  refine ⟨by decide, by decide, ?_, ?_⟩
  · have h := (C1_theorem ⟨0, []⟩ 15 [Event.mk .In 0, Event.mk .Out 120]
      (by decide) (by decide)).1
    rw [h]
    decide
  · have h := (C1_theorem ⟨0, []⟩ 15 [Event.mk .In 0, Event.mk .Out 120]
      (by decide) (by decide)).2
    rw [h]
    decide

/-! ### Calendar lemmas (towards C7) -/

theorem daysBeforeYear_mono {a b : Int} (h : a ≤ b) :
    daysBeforeYear a ≤ daysBeforeYear b := by
  unfold daysBeforeYear
  omega

theorem yearOf_est_lower (d : Int) : daysBeforeYear ((400 * d) / 146097) ≤ d := by
  unfold daysBeforeYear
  omega

theorem yearOf_est_upper (d : Int) : d < daysBeforeYear ((400 * d) / 146097 + 3) := by
  unfold daysBeforeYear
  omega

/-- The corrected estimate of `yearOf` is exact: day `d` lies in the year
`yearOf d`. -/
theorem yearOf_spec (d : Int) :
    daysBeforeYear (yearOf d) ≤ d ∧ d < daysBeforeYear (yearOf d + 1) := by
  unfold yearOf
  split
  · exact ⟨yearOf_est_lower d, by assumption⟩
  · split
    · refine ⟨by assumption, ?_⟩
      rw [show (400 * d) / 146097 + 2 + 1 = (400 * d) / 146097 + 3 by ring]
      exact yearOf_est_upper d
    · refine ⟨by omega, ?_⟩
      rw [show (400 * d) / 146097 + 1 + 1 = (400 * d) / 146097 + 2 by ring]
      omega

theorem yearOf_mono {d e : Int} (h : d ≤ e) : yearOf d ≤ yearOf e := by
  have h1 := yearOf_spec d
  have h2 := yearOf_spec e
  by_contra hc
  push_neg at hc
  have hm := daysBeforeYear_mono (show yearOf e + 1 ≤ yearOf d by omega)
  omega

/-- The ISO week only depends on the Monday of the day's week. -/
theorem isoWeekOf_congr {d e : Int} (h : mondayOnOrBefore d = mondayOnOrBefore e) :
    isoWeekOf d = isoWeekOf e := by
  unfold isoWeekOf
  rw [h]

theorem mondayOnOrBefore_mod {d : Int} : mondayOnOrBefore d % 7 = 0 := by
  unfold mondayOnOrBefore
  omega

theorem mondayOnOrBefore_of_monday {m : Int} (hm : m % 7 = 0) :
    mondayOnOrBefore m = m := by
  unfold mondayOnOrBefore
  omega

/-- Round trip: `from_isoywd` applied to the ISO week of a Monday returns
that Monday. -/
theorem fromIso_isoWeek (m : Int) (hm : m % 7 = 0) :
    fromIsoWeekMonday (isoWeekOf m) = m := by
  unfold fromIsoWeekMonday isoWeekOf mondayOnOrBefore
  dsimp only
  omega

theorem wLt_trans {a b c : Int × Int} (h1 : wLt a b) (h2 : wLt b c) : wLt a c := by
  unfold wLt at *
  omega

theorem wLt_ne {a b : Int × Int} (h : wLt a b) : a ≠ b := by
  obtain ⟨a1, a2⟩ := a
  obtain ⟨b1, b2⟩ := b
  unfold wLt at h
  simp only [Prod.mk.injEq, ne_eq, not_and]
  dsimp only at h
  omega

theorem wLe_of_wLt {a b : Int × Int} (h : wLt a b) : wLe a b := by
  unfold wLt at h
  unfold wLe
  omega

theorem wLe_refl (a : Int × Int) : wLe a a := by
  unfold wLe
  omega

theorem not_wLe_of_wLt {a b : Int × Int} (h : wLt a b) : ¬ wLe b a := by
  unfold wLt at h
  unfold wLe
  omega

theorem wLt_connected {a b : Int × Int} (h1 : ¬ wLt a b) (h2 : a ≠ b) : wLt b a := by
  obtain ⟨a1, a2⟩ := a
  obtain ⟨b1, b2⟩ := b
  unfold wLt at *
  dsimp only at *
  have h3 : ¬(a1 = b1 ∧ a2 = b2) := by
    rintro ⟨x, y⟩
    exact h2 (by rw [x, y])
  omega

/-- Stepping a Monday by one week strictly increases its ISO week in the
lexicographic `(year, week)` order, also across year boundaries. -/
theorem isoWeek_step (m : Int) (hm : m % 7 = 0) :
    wLt (isoWeekOf m) (isoWeekOf (m + 7)) := by
  have e1 : m - m % 7 = m := by omega
  have e2 : m + 7 - (m + 7) % 7 = m + 7 := by omega
  unfold isoWeekOf mondayOnOrBefore
  rw [e1, e2]
  have hy : yearOf (m + 3) ≤ yearOf (m + 7 + 3) := yearOf_mono (by omega)
  rcases eq_or_lt_of_le hy with heq | hlt
  · unfold wLt
    right
    dsimp only
    rw [← heq]
    exact ⟨rfl, by omega⟩
  · unfold wLt
    left
    dsimp only
    exact hlt

/-- ISO weeks of Mondays are strictly monotone in the week index. -/
theorem isoWeek_strict_mono (m : Int) (hm : m % 7 = 0) :
    ∀ {i j : Int}, i < j → wLt (isoWeekOf (m + 7 * i)) (isoWeekOf (m + 7 * j)) := by
  intro i j hij
  have hgen : ∀ n : Int, i + 1 ≤ n → wLt (isoWeekOf (m + 7 * i)) (isoWeekOf (m + 7 * n)) := by
    refine Int.le_induction ?_ ?_
    · have hs := isoWeek_step (m + 7 * i) (by omega)
      have he : m + 7 * i + 7 = m + 7 * (i + 1) := by ring
      rw [he] at hs
      exact hs
    · intro k hk ih
      have hs := isoWeek_step (m + 7 * k) (by omega)
      have he : m + 7 * k + 7 = m + 7 * (k + 1) := by ring
      rw [he] at hs
      exact wLt_trans ih hs
  exact hgen j (by omega)

/-! ### Association-map lemmas -/

theorem keysOf_nil {K : Type} : keysOf ([] : List (K × WorkTime)) = [] := rfl

theorem keysOf_cons {K : Type} (p : K × WorkTime) (l : List (K × WorkTime)) :
    keysOf (p :: l) = p.1 :: keysOf l := rfl

theorem WorkTime.add_def (a b : WorkTime) :
    a + b = ⟨a.gross + b.gross, a.net + b.net⟩ := rfl

theorem GoodWT_new : GoodWT WorkTime.new := by
  unfold GoodWT WorkTime.new
  refine ⟨?_, ?_, ?_⟩ <;> simp

theorem GoodWT_add {a b : WorkTime} (ha : GoodWT a) (hb : GoodWT b) : GoodWT (a + b) := by
  unfold GoodWT at *
  rw [WorkTime.add_def]
  dsimp only
  omega

section MapLemmas

variable {K : Type} [DecidableEq K] (lt : K → K → Prop) [DecidableRel lt]

theorem keysOf_mapAdd_mem (m : List (K × WorkTime)) (k : K) (w : WorkTime) :
    ∀ x, x ∈ keysOf (mapAdd lt m k w) ↔ (x = k ∨ x ∈ keysOf m) := by
  induction m with
  | nil =>
    intro x
    simp [mapAdd, keysOf_cons, keysOf_nil]
  | cons p rest ih =>
    intro x
    obtain ⟨k', v⟩ := p
    unfold mapAdd
    split
    · simp only [keysOf_cons, List.mem_cons]
      try tauto
    · split
      · rename_i h1 heq
        subst heq
        simp only [keysOf_cons, List.mem_cons]
        tauto
      · simp only [keysOf_cons, List.mem_cons, ih x]
        tauto

theorem keysOf_mapZero_mem (m : List (K × WorkTime)) (k : K) :
    ∀ x, x ∈ keysOf (mapZero lt m k) ↔ (x = k ∨ x ∈ keysOf m) := by
  induction m with
  | nil =>
    intro x
    simp [mapZero, keysOf_cons, keysOf_nil]
  | cons p rest ih =>
    intro x
    obtain ⟨k', v⟩ := p
    unfold mapZero
    split
    · simp only [keysOf_cons, List.mem_cons]
      try tauto
    · split
      · rename_i h1 heq
        subst heq
        simp only [keysOf_cons, List.mem_cons]
        tauto
      · simp only [keysOf_cons, List.mem_cons, ih x]
        tauto

theorem pairwise_keys_mapAdd
    (htrans : ∀ {a b c : K}, lt a b → lt b c → lt a c)
    (hconn : ∀ {a b : K}, ¬ lt a b → ¬ (a = b) → lt b a)
    (m : List (K × WorkTime)) (k : K) (w : WorkTime)
    (hs : List.Pairwise lt (keysOf m)) :
    List.Pairwise lt (keysOf (mapAdd lt m k w)) := by
  induction m with
  | nil => simp [mapAdd, keysOf_cons, keysOf_nil]
  | cons p rest ih =>
    obtain ⟨k', v⟩ := p
    rw [keysOf_cons] at hs
    have hs1 := (List.pairwise_cons.mp hs).1
    have hs2 := (List.pairwise_cons.mp hs).2
    unfold mapAdd
    split
    · rename_i hlt'
      rw [keysOf_cons]
      refine List.Pairwise.cons ?_ hs
      intro y hy
      rw [keysOf_cons] at hy
      rcases List.mem_cons.mp hy with rfl | hy
      · exact hlt'
      · exact htrans hlt' (hs1 y hy)
    · split
      · rename_i h1 heq
        subst heq
        rw [keysOf_cons]
        exact hs
      · rename_i h1 h2
        rw [keysOf_cons]
        refine List.Pairwise.cons ?_ (ih hs2)
        intro y hy
        rcases (keysOf_mapAdd_mem lt rest k w y).mp hy with rfl | hy
        · exact hconn h1 h2
        · exact hs1 y hy

theorem pairwise_keys_mapZero
    (htrans : ∀ {a b c : K}, lt a b → lt b c → lt a c)
    (hconn : ∀ {a b : K}, ¬ lt a b → ¬ (a = b) → lt b a)
    (m : List (K × WorkTime)) (k : K)
    (hs : List.Pairwise lt (keysOf m)) :
    List.Pairwise lt (keysOf (mapZero lt m k)) := by
  induction m with
  | nil => simp [mapZero, keysOf_cons, keysOf_nil]
  | cons p rest ih =>
    obtain ⟨k', v⟩ := p
    rw [keysOf_cons] at hs
    have hs1 := (List.pairwise_cons.mp hs).1
    have hs2 := (List.pairwise_cons.mp hs).2
    unfold mapZero
    split
    · rename_i hlt'
      rw [keysOf_cons]
      refine List.Pairwise.cons ?_ hs
      intro y hy
      rw [keysOf_cons] at hy
      rcases List.mem_cons.mp hy with rfl | hy
      · exact hlt'
      · exact htrans hlt' (hs1 y hy)
    · split
      · rename_i h1 heq
        subst heq
        rw [keysOf_cons]
        exact hs
      · rename_i h1 h2
        rw [keysOf_cons]
        refine List.Pairwise.cons ?_ (ih hs2)
        intro y hy
        rcases (keysOf_mapZero_mem lt rest k y).mp hy with rfl | hy
        · exact hconn h1 h2
        · exact hs1 y hy

theorem values_mapAdd (m : List (K × WorkTime)) (k : K) (w : WorkTime)
    (hw : GoodWT w) (hm : ∀ p ∈ m, GoodWT p.2) :
    ∀ p ∈ mapAdd lt m k w, GoodWT p.2 := by
  induction m with
  | nil =>
    intro p hp
    simp only [mapAdd, List.mem_singleton] at hp
    subst hp
    exact GoodWT_add GoodWT_new hw
  | cons q rest ih =>
    intro p hp
    obtain ⟨k', v⟩ := q
    have hv : GoodWT v := hm (k', v) (by simp)
    have hrest : ∀ p ∈ rest, GoodWT p.2 := fun p hp => hm p (by simp [hp])
    unfold mapAdd at hp
    split at hp
    · rcases List.mem_cons.mp hp with rfl | hp
      · exact GoodWT_add GoodWT_new hw
      · exact hm p hp
    · split at hp
      · rcases List.mem_cons.mp hp with rfl | hp
        · exact GoodWT_add hv hw
        · exact hrest p hp
      · rcases List.mem_cons.mp hp with rfl | hp
        · exact hv
        · exact ih hrest p hp

theorem values_mapZero (m : List (K × WorkTime)) (k : K)
    (hm : ∀ p ∈ m, GoodWT p.2) :
    ∀ p ∈ mapZero lt m k, GoodWT p.2 := by
  induction m with
  | nil =>
    intro p hp
    simp only [mapZero, List.mem_singleton] at hp
    subst hp
    exact GoodWT_new
  | cons q rest ih =>
    intro p hp
    obtain ⟨k', v⟩ := q
    have hv : GoodWT v := hm (k', v) (by simp)
    have hrest : ∀ p ∈ rest, GoodWT p.2 := fun p hp => hm p (by simp [hp])
    unfold mapZero at hp
    split at hp
    · rcases List.mem_cons.mp hp with rfl | hp
      · exact GoodWT_new
      · exact hm p hp
    · split at hp
      · rcases List.mem_cons.mp hp with rfl | hp
        · exact hv
        · exact hrest p hp
      · rcases List.mem_cons.mp hp with rfl | hp
        · exact hv
        · exact ih hrest p hp

end MapLemmas

/-! ### Fill-loop lemmas -/

theorem intLt_trans {a b c : Int} (h1 : a < b) (h2 : b < c) : a < c := by omega

theorem intLt_connected {a b : Int} (h1 : ¬ a < b) (h2 : ¬ (a = b)) : b < a := by omega

theorem fillWeeks_succ (T : Int × Int) (f : Nat) (w : Int × Int)
    (wm : List ((Int × Int) × WorkTime)) :
    fillWeeks T (f + 1) w wm =
      if wLe w T then
        fillWeeks T f (isoWeekOf (fromIsoWeekMonday w + 7)) (mapZero wLt wm w)
      else wm := rfl

theorem fillDaysGo_spec (n : Nat) :
    ∀ (d : Int) (m : List (Int × WorkTime)),
      (∀ x, x ∈ keysOf (fillDaysGo n d m) ↔
        (x ∈ keysOf m ∨ (d ≤ x ∧ x < d + (n : Int)))) ∧
      (List.Pairwise (fun a b : Int => a < b) (keysOf m) →
        List.Pairwise (fun a b : Int => a < b) (keysOf (fillDaysGo n d m))) ∧
      ((∀ p ∈ m, GoodWT p.2) → ∀ p ∈ fillDaysGo n d m, GoodWT p.2) := by
  induction n with
  | zero =>
    intro d m
    refine ⟨?_, fun h => h, fun h => h⟩
    intro x
    unfold fillDaysGo
    constructor
    · intro h
      exact Or.inl h
    · rintro (h | h)
      · exact h
      · exfalso
        omega
  | succ nn ih =>
    intro d m
    obtain ⟨ihm, ihs, ihv⟩ := ih (d + 1) (mapZero (· < ·) m d)
    refine ⟨?_, ?_, ?_⟩
    · intro x
      unfold fillDaysGo
      rw [ihm x, keysOf_mapZero_mem]
      constructor
      · rintro ((rfl | h) | h)
        · exact Or.inr (by omega)
        · exact Or.inl h
        · refine Or.inr ?_
          push_cast at h ⊢
          omega
      · rintro (h | h)
        · exact Or.inl (Or.inr h)
        · by_cases hx : x = d
          · exact Or.inl (Or.inl hx)
          · refine Or.inr ?_
            push_cast at h ⊢
            omega
    · intro hs
      unfold fillDaysGo
      exact ihs (pairwise_keys_mapZero (fun a b : Int => a < b) intLt_trans intLt_connected m d hs)
    · intro hv
      unfold fillDaysGo
      exact ihv (values_mapZero _ m d hv)

theorem fillWeeks_stop (T : Int × Int) (fuel : Nat) (w : Int × Int)
    (wm : List ((Int × Int) × WorkTime)) (h : ¬ wLe w T) :
    fillWeeks T fuel w wm = wm := by
  cases fuel <;> simp [fillWeeks, h]

/-- One full run of the week-fill loop: starting at the ISO week of Monday
`m0` with target `m0 + 7n`, every week `W k` for `0 ≤ k ≤ n` is inserted,
order and value well-formedness are preserved, and the fuel is not exhausted
as long as `n < fuel`. -/
theorem fillWeeks_spec (n : Nat) :
    ∀ (m0 : Int), m0 % 7 = 0 →
    ∀ (fuel : Nat), n < fuel →
    ∀ (wm : List ((Int × Int) × WorkTime)),
      (∀ x, x ∈ keysOf (fillWeeks (isoWeekOf (m0 + 7 * (n : Int))) fuel (isoWeekOf m0) wm) ↔
        (x ∈ keysOf wm ∨ ∃ k : Int, 0 ≤ k ∧ k ≤ (n : Int) ∧ x = isoWeekOf (m0 + 7 * k))) ∧
      (List.Pairwise wLt (keysOf wm) →
        List.Pairwise wLt
          (keysOf (fillWeeks (isoWeekOf (m0 + 7 * (n : Int))) fuel (isoWeekOf m0) wm))) ∧
      ((∀ p ∈ wm, GoodWT p.2) →
        ∀ p ∈ fillWeeks (isoWeekOf (m0 + 7 * (n : Int))) fuel (isoWeekOf m0) wm,
          GoodWT p.2) := by
  induction n with
  | zero =>
    intro m0 hm fuel hfuel wm
    have e0 : m0 + 7 * ((0 : Nat) : Int) = m0 := by push_cast; ring
    rw [e0]
    obtain ⟨f, rfl⟩ : ∃ f, fuel = f + 1 := ⟨fuel - 1, by omega⟩
    have hrun : fillWeeks (isoWeekOf m0) (f + 1) (isoWeekOf m0) wm =
        mapZero wLt wm (isoWeekOf m0) := by
      rw [fillWeeks_succ, if_pos (wLe_refl _), fromIso_isoWeek m0 hm]
      exact fillWeeks_stop _ f _ _ (not_wLe_of_wLt (isoWeek_step m0 hm))
    rw [hrun]
    refine ⟨?_, ?_, ?_⟩
    · intro x
      rw [keysOf_mapZero_mem]
      constructor
      · rintro (rfl | h)
        · exact Or.inr ⟨0, by omega, by omega, by rw [show m0 + 7 * (0 : Int) = m0 by ring]⟩
        · exact Or.inl h
      · rintro (h | ⟨k, hk0, hk1, rfl⟩)
        · exact Or.inr h
        · left
          rw [show k = 0 by omega, show m0 + 7 * (0 : Int) = m0 by ring]
    · intro hs
      exact pairwise_keys_mapZero wLt wLt_trans wLt_connected wm (isoWeekOf m0) hs
    · intro hv
      exact values_mapZero _ wm (isoWeekOf m0) hv
  | succ nn ih =>
    intro m0 hm fuel hfuel wm
    obtain ⟨f, rfl⟩ : ∃ f, fuel = f + 1 := ⟨fuel - 1, by omega⟩
    have hm7 : (m0 + 7) % 7 = 0 := by omega
    have eT : m0 + 7 * ((nn + 1 : Nat) : Int) = (m0 + 7) + 7 * (nn : Int) := by
      push_cast
      ring
    have hcond : wLe (isoWeekOf m0) (isoWeekOf (m0 + 7 * ((nn + 1 : Nat) : Int))) := by
      have hlt := isoWeek_strict_mono m0 hm
        (show (0 : Int) < ((nn + 1 : Nat) : Int) by push_cast; omega)
      rw [show m0 + 7 * (0 : Int) = m0 by ring] at hlt
      exact wLe_of_wLt hlt
    have hrun : fillWeeks (isoWeekOf (m0 + 7 * ((nn + 1 : Nat) : Int))) (f + 1)
        (isoWeekOf m0) wm =
        fillWeeks (isoWeekOf ((m0 + 7) + 7 * (nn : Int))) f (isoWeekOf (m0 + 7))
          (mapZero wLt wm (isoWeekOf m0)) := by
      rw [fillWeeks_succ, if_pos hcond, fromIso_isoWeek m0 hm, eT]
    obtain ⟨ihm, ihs, ihv⟩ := ih (m0 + 7) hm7 f (by omega) (mapZero wLt wm (isoWeekOf m0))
    rw [hrun]
    refine ⟨?_, ?_, ?_⟩
    · intro x
      rw [ihm x, keysOf_mapZero_mem]
      constructor
      · rintro ((rfl | h) | ⟨k, hk0, hk1, rfl⟩)
        · refine Or.inr ⟨0, by omega, by push_cast; omega, ?_⟩
          rw [show m0 + 7 * (0 : Int) = m0 by ring]
        · exact Or.inl h
        · refine Or.inr ⟨k + 1, by omega, by push_cast at hk1 ⊢; omega, ?_⟩
          rw [show m0 + 7 * (k + 1) = m0 + 7 + 7 * k by ring]
      · rintro (h | ⟨k, hk0, hk1, rfl⟩)
        · exact Or.inl (Or.inr h)
        · by_cases hk : k = 0
          · subst hk
            left
            left
            rw [show m0 + 7 * (0 : Int) = m0 by ring]
          · refine Or.inr ⟨k - 1, by omega, by push_cast at hk1 ⊢; omega, ?_⟩
            rw [show m0 + 7 + 7 * (k - 1) = m0 + 7 * k by ring]
    · intro hs
      exact ihs (pairwise_keys_mapZero wLt wLt_trans wLt_connected wm (isoWeekOf m0) hs)
    · intro hv
      exact ihv (values_mapZero _ wm (isoWeekOf m0) hv)

/-! ### Interval provenance (towards C10 and C7) -/

theorem recRun_append (tz : TimeZone) (ov : Int) (st : RecState) (l : List Event) (e : Event) :
    recRun tz ov st (l ++ [e]) = recStep tz ov (recRun tz ov st l) e := by
  simp [recRun]

/-- How one loop step can change the interval list: it either leaves it
unchanged, or closes the pending in-event into one new interval. -/
theorem recStep_intervals_sub (tz : TimeZone) (ov : Int) (st : RecState) (x : Event) :
    ∀ i ∈ (recStep tz ov st x).intervals,
      i ∈ st.intervals ∨
        ∃ p, st.last_in = some p ∧
          i = Interval.new (to_local tz p.clock) (to_local tz x.clock) ov := by
  unfold recStep
  split
  · intro i hi
    exact Or.inl hi
  split
  · intro i hi
    exact Or.inl hi
  split
  · intro i hi
    exact Or.inl hi
  dsimp only
  split
  · intro i hi
    exact Or.inl hi
  · split
    · rename_i p hp
      intro i hi
      simp only [List.mem_append, List.mem_singleton] at hi
      rcases hi with hi | rfl
      · exact Or.inl hi
      · exact Or.inr ⟨p, hp, rfl⟩
    · intro i hi
      exact Or.inl hi
  · intro i hi
    exact Or.inl hi

/-- How one loop step can change the pending in-event: unchanged, cleared,
or set to the current event. -/
theorem recStep_last_in_sub (tz : TimeZone) (ov : Int) (st : RecState) (x : Event) :
    (recStep tz ov st x).last_in = st.last_in ∨
    (recStep tz ov st x).last_in = none ∨
    (recStep tz ov st x).last_in = some x := by
  unfold recStep
  split
  · exact Or.inl rfl
  split
  · exact Or.inl rfl
  split
  · exact Or.inl rfl
  dsimp only
  split
  · exact Or.inr (Or.inr rfl)
  · split
    · exact Or.inr (Or.inl rfl)
    · exact Or.inl rfl
  · exact Or.inl rfl

/-- Provenance of the loop's results: every emitted interval comes from a
pair of events appearing in order in the input, and a pending in-event is an
input event. -/
theorem recRun_provenance (tz : TimeZone) (ov : Int) (events : List Event) :
    (∀ i ∈ (recRun tz ov initState events).intervals,
      ∃ a b, List.Sublist [a, b] events ∧
        i = Interval.new (to_local tz a.clock) (to_local tz b.clock) ov) ∧
    (∀ e, (recRun tz ov initState events).last_in = some e → e ∈ events) := by
  induction events using List.reverseRecOn with
  | nil =>
    constructor
    · intro i hi
      simp [recRun, initState] at hi
    · intro e he
      simp [recRun, initState] at he
  | append_singleton l x ih =>
    obtain ⟨ih1, ih2⟩ := ih
    rw [recRun_append]
    constructor
    · intro i hi
      rcases recStep_intervals_sub tz ov (recRun tz ov initState l) x i hi with hi | ⟨p, hp, rfl⟩
      · obtain ⟨a, b, hab, rfl⟩ := ih1 i hi
        exact ⟨a, b, hab.trans (List.sublist_append_left l [x]), rfl⟩
      · refine ⟨p, x, ?_, rfl⟩
        have hpmem : p ∈ l := ih2 p hp
        have h1 : List.Sublist [p] l := List.singleton_sublist.mpr hpmem
        simpa using h1.append (List.Sublist.refl [x])
    · intro e he
      rcases recStep_last_in_sub tz ov (recRun tz ov initState l) x with h | h | h
      · rw [h] at he
        exact List.mem_append_left _ (ih2 e he)
      · rw [h] at he
        cases he
      · rw [h] at he
        injection he with he
        subst he
        exact List.mem_append_right _ (by simp)

/-- Provenance for the full interval list including the open interval. -/
theorem summaryIntervals_provenance (tz : TimeZone) (ov : Int) (events : List Event)
    (now2L : Int) :
    ∀ i ∈ summaryIntervals tz ov events now2L,
      (∃ a b, List.Sublist [a, b] events ∧
        i = Interval.new (to_local tz a.clock) (to_local tz b.clock) ov) ∨
      (∃ a, a ∈ events ∧ i = Interval.new (to_local tz a.clock) now2L ov) := by
  intro i hi
  unfold summaryIntervals at hi
  simp only [List.mem_append] at hi
  rcases hi with hi | hi
  · exact Or.inl ((recRun_provenance tz ov events).1 i hi)
  · rcases he : (recRun tz ov initState events).last_in with _ | e
    · rw [he] at hi
      simp at hi
    · rw [he] at hi
      simp only [List.mem_singleton] at hi
      subst hi
      exact Or.inr ⟨e, (recRun_provenance tz ov events).2 e he, rfl⟩

/-- Predicate `ascendingB` gives pairwise ordering of the clocks. -/
theorem ascendingB_pairwise :
    ∀ (l : List Event), ascendingB l = true →
      List.Pairwise (fun a b : Event => a.clock ≤ b.clock) l
  | [] , _ => List.Pairwise.nil
  | [a], _ => by simp
  | a :: b :: rest, h => by
      have h2 : a.clock ≤ b.clock ∧ ascendingB (b :: rest) = true := by
        simpa [ascendingB, Bool.and_eq_true] using h
      have ih := ascendingB_pairwise (b :: rest) h2.2
      refine List.Pairwise.cons ?_ ih
      intro y hy
      rcases List.mem_cons.mp hy with rfl | hy
      · exact h2.1
      · have hby := (List.pairwise_cons.mp ih).1 y hy
        omega

/-- Filtering preserves ascending order. -/
theorem ascending_filter (l : List Event) (f : Event → Bool)
    (h : List.Pairwise (fun a b : Event => a.clock ≤ b.clock) l) :
    List.Pairwise (fun a b : Event => a.clock ≤ b.clock) (l.filter f) :=
  List.Pairwise.filter f h

/-! ### Allocation lemmas -/

theorem allocGo_spec (intervals : List Interval) :
    ∀ (dm : List (Int × WorkTime)) (wm : List ((Int × Int) × WorkTime)),
      (∀ x, x ∈ keysOf (allocGo intervals (dm, wm)).1 ↔
        (x ∈ keysOf dm ∨ ∃ i ∈ intervals, x = i.start / 1440)) ∧
      (∀ x, x ∈ keysOf (allocGo intervals (dm, wm)).2 ↔
        (x ∈ keysOf wm ∨ ∃ i ∈ intervals, x = isoWeekOf (i.start / 1440))) ∧
      (List.Pairwise (fun a b : Int => a < b) (keysOf dm) →
        List.Pairwise (fun a b : Int => a < b) (keysOf (allocGo intervals (dm, wm)).1)) ∧
      (List.Pairwise wLt (keysOf wm) →
        List.Pairwise wLt (keysOf (allocGo intervals (dm, wm)).2)) ∧
      ((∀ i ∈ intervals, GoodWT i.work_time) → (∀ p ∈ dm, GoodWT p.2) →
        ∀ p ∈ (allocGo intervals (dm, wm)).1, GoodWT p.2) ∧
      ((∀ i ∈ intervals, GoodWT i.work_time) → (∀ p ∈ wm, GoodWT p.2) →
        ∀ p ∈ (allocGo intervals (dm, wm)).2, GoodWT p.2) := by
  induction intervals with
  | nil =>
    intro dm wm
    refine ⟨?_, ?_, fun h => h, fun h => h, fun _ h => h, fun _ h => h⟩
    · intro x
      simp [allocGo]
    · intro x
      simp [allocGo]
  | cons i rest ih =>
    intro dm wm
    have hstep : allocGo (i :: rest) (dm, wm) =
        allocGo rest
          (mapAdd (· < ·) dm (i.start / 1440) i.work_time,
           mapAdd wLt wm (isoWeekOf (i.start / 1440)) i.work_time) := rfl
    obtain ⟨ihd, ihw, ihsd, ihsw, ihvd, ihvw⟩ :=
      ih (mapAdd (· < ·) dm (i.start / 1440) i.work_time)
        (mapAdd wLt wm (isoWeekOf (i.start / 1440)) i.work_time)
    rw [hstep]
    refine ⟨?_, ?_, ?_, ?_, ?_, ?_⟩
    · intro x
      rw [ihd x, keysOf_mapAdd_mem]
      constructor
      · rintro ((rfl | h) | ⟨j, hj, rfl⟩)
        · exact Or.inr ⟨i, by simp⟩
        · exact Or.inl h
        · exact Or.inr ⟨j, by simp [hj]⟩
      · rintro (h | ⟨j, hj, rfl⟩)
        · exact Or.inl (Or.inr h)
        · rcases List.mem_cons.mp hj with rfl | hj
          · exact Or.inl (Or.inl rfl)
          · exact Or.inr ⟨j, hj, rfl⟩
    · intro x
      rw [ihw x, keysOf_mapAdd_mem]
      constructor
      · rintro ((rfl | h) | ⟨j, hj, rfl⟩)
        · exact Or.inr ⟨i, by simp⟩
        · exact Or.inl h
        · exact Or.inr ⟨j, by simp [hj]⟩
      · rintro (h | ⟨j, hj, rfl⟩)
        · exact Or.inl (Or.inr h)
        · rcases List.mem_cons.mp hj with rfl | hj
          · exact Or.inl (Or.inl rfl)
          · exact Or.inr ⟨j, hj, rfl⟩
    · intro hs
      exact ihsd (pairwise_keys_mapAdd (fun a b : Int => a < b) intLt_trans intLt_connected
        dm (i.start / 1440) i.work_time hs)
    · intro hs
      exact ihsw (pairwise_keys_mapAdd wLt wLt_trans wLt_connected
        wm (isoWeekOf (i.start / 1440)) i.work_time hs)
    · intro hgood hv
      have hgi : GoodWT i.work_time := hgood i (by simp)
      have hgrest : ∀ j ∈ rest, GoodWT j.work_time := fun j hj => hgood j (by simp [hj])
      exact ihvd hgrest (values_mapAdd _ dm (i.start / 1440) i.work_time hgi hv)
    · intro hgood hv
      have hgi : GoodWT i.work_time := hgood i (by simp)
      have hgrest : ∀ j ∈ rest, GoodWT j.work_time := fun j hj => hgood j (by simp [hj])
      exact ihvw hgrest (values_mapAdd _ wm (isoWeekOf (i.start / 1440)) i.work_time hgi hv)

/-! ### C10: non-negative work time everywhere -/

theorem GoodWT_from_duration {g ov : Int} (hg : 0 ≤ g) (hov : 0 ≤ ov) :
    GoodWT (WorkTime.from_duration g ov) := by
  unfold GoodWT WorkTime.from_duration
  dsimp only
  split <;> omega

/-- Every interval (closed or open) produced over an ascending event list
bounded by the evaluation instant has a well-formed work time, provided the
time zone applies one constant offset. -/
theorem summaryIntervals_good (tz : TimeZone) (ov : Int) (events : List Event) (now2L : Int)
    (hov : 0 ≤ ov)
    (hoff : ∀ u, offsetAt tz u = tz.initOffset)
    (hasc : List.Pairwise (fun a b : Event => a.clock ≤ b.clock) events)
    (hle : ∀ e ∈ events, to_local tz e.clock ≤ now2L) :
    ∀ i ∈ summaryIntervals tz ov events now2L, GoodWT i.work_time := by
  intro i hi
  rcases summaryIntervals_provenance tz ov events now2L i hi with ⟨a, b, hab, rfl⟩ | ⟨a, ha, rfl⟩
  · have hclk : a.clock ≤ b.clock := by
      have hp := hasc.sublist hab
      simpa using hp
    have hg : 0 ≤ to_local tz b.clock - to_local tz a.clock := by
      unfold to_local
      rw [hoff, hoff]
      omega
    unfold Interval.new
    exact GoodWT_from_duration hg hov
  · have hg : 0 ≤ now2L - to_local tz a.clock := by
      have := hle a ha
      omega
    unfold Interval.new
    exact GoodWT_from_duration hg hov

theorem mondayOnOrBefore_shift (today : Int) :
    mondayOnOrBefore today = mondayOnOrBefore (today - 35) + 35 := by
  unfold mondayOnOrBefore
  omega

/-- The week-fill loop of the report, specialised to its actual arguments:
the target is always exactly five weeks after the start, so fuel 10 is never
exhausted and exactly the six weeks `W 0 … W 5` are inserted. -/
theorem fillWeeks_today (sd : Int) (hsd : sd % 7 = 0) (today : Int)
    (hm : mondayOnOrBefore today = sd + 35)
    (wm : List ((Int × Int) × WorkTime)) :
    (∀ x, x ∈ keysOf (fillWeeks (isoWeekOf today) 10 (isoWeekOf sd) wm) ↔
      (x ∈ keysOf wm ∨ ∃ k : Int, 0 ≤ k ∧ k ≤ 5 ∧ x = isoWeekOf (sd + 7 * k))) ∧
    (List.Pairwise wLt (keysOf wm) →
      List.Pairwise wLt (keysOf (fillWeeks (isoWeekOf today) 10 (isoWeekOf sd) wm))) ∧
    ((∀ p ∈ wm, GoodWT p.2) →
      ∀ p ∈ fillWeeks (isoWeekOf today) 10 (isoWeekOf sd) wm, GoodWT p.2) := by
  have heq : isoWeekOf today = isoWeekOf (sd + 7 * ((5 : Nat) : Int)) := by
    apply isoWeekOf_congr
    unfold mondayOnOrBefore at *
    push_cast
    omega
  rw [heq]
  obtain ⟨h1, h2, h3⟩ := fillWeeks_spec 5 sd hsd 10 (by norm_num) wm
  refine ⟨?_, h2, h3⟩
  intro x
  rw [h1 x]
  constructor
  · rintro (h | ⟨k, h0, h5, rfl⟩)
    · exact Or.inl h
    · exact Or.inr ⟨k, h0, by push_cast at h5; omega, rfl⟩
  · rintro (h | ⟨k, h0, h5, rfl⟩)
    · exact Or.inl h
    · exact Or.inr ⟨k, h0, by push_cast; omega, rfl⟩

/-- All buckets of a report body carry well-formed work times. -/
theorem report_body_good (tz : TimeZone) (history : List Event) (ov : Int)
    (now1L now2L start_utc : Int) (hov : 0 ≤ ov)
    (hoff : ∀ u, offsetAt tz u = tz.initOffset)
    (hasc : List.Pairwise (fun a b : Event => a.clock ≤ b.clock) history)
    (hle : ∀ e ∈ history, to_local tz e.clock ≤ now2L) :
    (∀ p ∈ (report_body tz history ov now1L now2L start_utc).days, GoodWT p.2) ∧
    (∀ p ∈ (report_body tz history ov now1L now2L start_utc).weeks, GoodWT p.2) := by
  have hints : ∀ i ∈ summaryIntervals tz ov (history.filter (fun e =>
      (e.event_type == EventType.In || e.event_type == EventType.Out) &&
        decide (start_utc ≤ e.clock))) now2L, GoodWT i.work_time := by
    apply summaryIntervals_good tz ov _ now2L hov hoff
    · exact List.Pairwise.filter _ hasc
    · intro e he
      exact hle e (List.mem_of_mem_filter he)
  have halloc := allocGo_spec (summaryIntervals tz ov (history.filter (fun e =>
      (e.event_type == EventType.In || e.event_type == EventType.Out) &&
        decide (start_utc ≤ e.clock))) now2L) [] []
  have hvd := halloc.2.2.2.2.1 hints (by simp)
  have hvw := halloc.2.2.2.2.2 hints (by simp)
  constructor
  · intro p hp
    unfold report_body at hp
    dsimp only at hp
    rw [List.mem_reverse] at hp
    split at hp
    · refine (fillDaysGo_spec _ _ _).2.2 hvd p (List.drop_subset _ _ hp)
    · exact (fillDaysGo_spec _ _ _).2.2 hvd p hp
  · intro p hp
    unfold report_body at hp
    dsimp only at hp
    rw [List.mem_reverse] at hp
    exact (fillWeeks_today (mondayOnOrBefore (now1L / 1440 - 35)) mondayOnOrBefore_mod
      (now1L / 1440) (mondayOnOrBefore_shift (now1L / 1440)) _).2.2 hvw p hp

/-- C10 (amended): when the time zone applies one constant UTC offset, then
for every ascending event list whose instants are at or before the
evaluation instant (the open-interval sample) and every non-negative
overhead, every interval emitted by `summary_report` (closed or open) has
gross at least 0 and net between 0 and gross; consequently every day and
week bucket of the report carries non-negative gross and net with net at
most gross. -/
theorem C10_theorem (tz : TimeZone) (ov : Int)
    (hov : 0 ≤ ov) (hs : SortedTZ tz) (hoff : ∀ u, offsetAt tz u = tz.initOffset) :
    (∀ (events : List Event) (now2L : Int),
        ascendingB events = true →
        (∀ e ∈ events, to_local tz e.clock ≤ now2L) →
        ∀ i ∈ summaryIntervals tz ov events now2L,
          0 ≤ i.work_time.gross ∧ 0 ≤ i.work_time.net ∧
            i.work_time.net ≤ i.work_time.gross) ∧
    (∀ (history : List Event) (now1L now2L : Int) (r : SummaryReport),
        ascendingB history = true →
        (∀ e ∈ history, to_local tz e.clock ≤ now2L) →
        summary_report tz history ov now1L now2L = .ok r →
        (∀ p ∈ r.days, 0 ≤ p.2.gross ∧ 0 ≤ p.2.net ∧ p.2.net ≤ p.2.gross) ∧
        (∀ p ∈ r.weeks, 0 ≤ p.2.gross ∧ 0 ≤ p.2.net ∧ p.2.net ≤ p.2.gross)) := by
  constructor
  · intro events now2L hasc hle i hi
    have hg := summaryIntervals_good tz ov events now2L hov hoff
      (ascendingB_pairwise events hasc) hle i hi
    exact hg
  · intro history now1L now2L r hasc hle hok
    unfold summary_report at hok
    rw [to_utc_const tz hs hoff] at hok
    dsimp only at hok
    injection hok with hok
    subst hok
    have hgood := report_body_good tz history ov now1L now2L
      (mondayOnOrBefore (now1L / 1440 - 35) * 1440 - tz.initOffset) hov hoff
      (ascendingB_pairwise history hasc) hle
    exact ⟨fun p hp => hgood.1 p hp, fun p hp => hgood.2 p hp⟩

/-- Counterexample to C10 as stated: across a fall-back offset transition
(offset drops from 60 to 0 at minute 1) the closed interval over
`[In at 0, Out at 1]` has gross `-59 < 0` and net `0 > gross`, although the
events ascend and lie before the evaluation instant. -/
theorem C10_counterexample :
    ¬ (∀ (tz : TimeZone) (ov : Int) (events : List Event) (nowU : Int),
        0 ≤ ov → ascendingB events = true →
        (∀ e ∈ events, e.clock ≤ nowU) →
        ∀ i ∈ summaryIntervals tz ov events (to_local tz nowU),
          0 ≤ i.work_time.gross ∧ i.work_time.net ≤ i.work_time.gross) := by
  intro h
  have hx := h ⟨60, [(1, 0)]⟩ 0 [⟨.In, 0⟩, ⟨.Out, 1⟩] 100 (by omega) (by decide)
    (by decide) (Interval.new 60 1 0) (by decide)
  revert hx
  decide

/-- Witness for C10 at a concrete constant-offset input, exercising both the
interval bound and the bucket bound. -/
theorem C10_witness :
    (0 ≤ (Interval.new 0 120 15).work_time.gross ∧
      0 ≤ (Interval.new 0 120 15).work_time.net ∧
      (Interval.new 0 120 15).work_time.net ≤ (Interval.new 0 120 15).work_time.gross) ∧
    ascendingB [Event.mk .In 0, Event.mk .Out 120] = true := by
  constructor
  · exact (C10_theorem ⟨0, []⟩ 15 (by omega) (by simp [SortedTZ]) (fun u => rfl)).1
      [Event.mk .In 0, Event.mk .Out 120] 200 (by decide) (by decide)
      (Interval.new 0 120 15) (by decide)
  · decide

/-! ### C7: bucket counts -/

theorem nodup_subset_length {α : Type _} [DecidableEq α] {l1 l2 : List α}
    (h1 : l1.Nodup) (hs : l1 ⊆ l2) : l1.length ≤ l2.length := by
  calc l1.length = l1.toFinset.card := (List.toFinset_card_of_nodup h1).symm
    _ ≤ l2.toFinset.card := Finset.card_le_card (fun x hx => by
        simp only [List.mem_toFinset] at *
        exact hs hx)
    _ ≤ l2.length := l2.toFinset_card_le

theorem nodup_mem_length_eq {α : Type _} [DecidableEq α] {l1 l2 : List α}
    (h1 : l1.Nodup) (h2 : l2.Nodup) (h : ∀ x, x ∈ l1 ↔ x ∈ l2) : l1.length = l2.length := by
  have hf : l1.toFinset = l2.toFinset := by
    ext x
    simp [h x]
  calc l1.length = l1.toFinset.card := (List.toFinset_card_of_nodup h1).symm
    _ = l2.toFinset.card := by rw [hf]
    _ = l2.length := List.toFinset_card_of_nodup h2

/-- The start of every interval of a report is the local conversion of some
input event's instant. -/
theorem summaryIntervals_start (tz : TimeZone) (ov : Int) (events : List Event)
    (now2L : Int) :
    ∀ i ∈ summaryIntervals tz ov events now2L,
      ∃ a, a ∈ events ∧ i.start = to_local tz a.clock := by
  intro i hi
  rcases summaryIntervals_provenance tz ov events now2L i hi with ⟨a, b, hab, rfl⟩ | ⟨a, ha, rfl⟩
  · exact ⟨a, hab.subset (by simp), rfl⟩
  · exact ⟨a, ha, rfl⟩

/-- A date in the 6-week window has the ISO week of one of the six Mondays
`sd + 7k`, `0 ≤ k ≤ 5`. -/
theorem isoWeekOf_in_window {sd date : Int} (hsd : sd % 7 = 0)
    (h1 : sd ≤ date) (h2 : date ≤ sd + 41) :
    ∃ k : Int, 0 ≤ k ∧ k ≤ 5 ∧ isoWeekOf date = isoWeekOf (sd + 7 * k) := by
  refine ⟨(date - sd) / 7, by omega, by omega, ?_⟩
  apply isoWeekOf_congr
  unfold mondayOnOrBefore
  omega

/-- The day list of every report body — over any history, any window start
and any time zone — has exactly `weekday_index_from_monday(today) + 1`
entries: the fill guarantees at least 36 day buckets and the trim then
keeps exactly `keep_days` of them. -/
theorem report_body_days_length (tz : TimeZone) (history : List Event) (ov : Int)
    (now1L now2L start_utc : Int) :
    (report_body tz history ov now1L now2L start_utc).days.length =
      ((now1L / 1440) % 7).toNat + 1 := by
  unfold report_body
  dsimp only
  rw [List.length_reverse]
  have hsdle : mondayOnOrBefore (now1L / 1440 - 35) ≤ now1L / 1440 - 35 := by
    unfold mondayOnOrBefore
    omega
  have h8 : 8 ≤ (fillDays (now1L / 1440) (mondayOnOrBefore (now1L / 1440 - 35))
      (allocMaps (summaryIntervals tz ov (history.filter (fun e =>
        (e.event_type == EventType.In || e.event_type == EventType.Out) &&
          decide (start_utc ≤ e.clock)))
        now2L)).1).length := by
    have hsub : ∀ x ∈ (List.range 8).map
        (fun i : Nat => mondayOnOrBefore (now1L / 1440 - 35) + (i : Int)),
        x ∈ keysOf (fillDays (now1L / 1440) (mondayOnOrBefore (now1L / 1440 - 35))
          (allocMaps (summaryIntervals tz ov (history.filter (fun e =>
            (e.event_type == EventType.In || e.event_type == EventType.Out) &&
              decide (start_utc ≤ e.clock))) now2L)).1) := by
      intro x hx
      obtain ⟨i, hi, rfl⟩ := List.mem_map.mp hx
      have hi8 : i < 8 := List.mem_range.mp hi
      have hn : (8 : Int) ≤
          ((now1L / 1440 + 1 - mondayOnOrBefore (now1L / 1440 - 35)).toNat : Int) := by
        rw [Int.toNat_of_nonneg (show (0 : Int) ≤
          now1L / 1440 + 1 - mondayOnOrBefore (now1L / 1440 - 35) by omega)]
        omega
      unfold fillDays
      refine ((fillDaysGo_spec _ _ _).1 _).mpr (Or.inr ⟨by omega, by omega⟩)
    have hnd : ((List.range 8).map
        (fun i : Nat => mondayOnOrBefore (now1L / 1440 - 35) + (i : Int))).Nodup := by
      refine List.Nodup.map ?_ (List.nodup_range 8)
      intro a b hab
      dsimp only at hab
      omega
    have hlen := nodup_subset_length hnd (fun x hx => hsub x hx)
    rw [List.length_map, List.length_range] at hlen
    calc 8 ≤ (keysOf (fillDays (now1L / 1440) (mondayOnOrBefore (now1L / 1440 - 35))
          (allocMaps (summaryIntervals tz ov (history.filter (fun e =>
            (e.event_type == EventType.In || e.event_type == EventType.Out) &&
              decide (start_utc ≤ e.clock))) now2L)).1)).length := hlen
      _ = _ := List.length_map _ _
  rw [if_pos (by omega)]
  rw [List.length_drop]
  omega

/-- C7 (amended): for every event history and every current date, whenever
`summary_report` produces a report, its day list has exactly
`weekday_index_from_monday(today) + 1` entries (Monday 1 … Sunday 7); and
provided the local time zone applies one constant UTC offset over the window
(so the window conversion succeeds) and every stored event's local instant
is at most the instant sampled at the start of report generation, a report
is produced and its week list has exactly 6 entries, the week fill stepping
correctly across ISO year boundaries. -/
theorem C7_theorem (tz : TimeZone) (history : List Event) (ov : Int) (now1L now2L : Int) :
    (∀ r, summary_report tz history ov now1L now2L = .ok r →
      r.days.length = ((now1L / 1440) % 7).toNat + 1) ∧
    (SortedTZ tz → (∀ u, offsetAt tz u = tz.initOffset) →
      (∀ e ∈ history, to_local tz e.clock ≤ now1L) →
      ∃ r, summary_report tz history ov now1L now2L = .ok r ∧
        r.weeks.length = 6) := by
  constructor
  · intro r hok
    unfold summary_report at hok
    rcases hc : to_utc tz (mondayOnOrBefore (now1L / 1440 - 35) * 1440) with e | s
    · rw [hc] at hok
      dsimp only at hok
      cases hok
    · rw [hc] at hok
      dsimp only at hok
      injection hok with hok
      subst hok
      exact report_body_days_length tz history ov now1L now2L s
  · intro hs hoff hle
    refine ⟨report_body tz history ov now1L now2L
      (mondayOnOrBefore (now1L / 1440 - 35) * 1440 - tz.initOffset), ?_, ?_⟩
    · unfold summary_report
      rw [to_utc_const tz hs hoff]
    -- weeks
    unfold report_body
    dsimp only
    rw [List.length_reverse]
    have hsd : mondayOnOrBefore (now1L / 1440 - 35) % 7 = 0 := mondayOnOrBefore_mod
    have halloc := allocGo_spec (summaryIntervals tz ov (history.filter (fun e =>
      (e.event_type == EventType.In || e.event_type == EventType.Out) &&
        decide (mondayOnOrBefore (now1L / 1440 - 35) * 1440 - tz.initOffset ≤ e.clock)))
      now2L) [] []
    obtain ⟨wmem, wsort, _⟩ := fillWeeks_today (mondayOnOrBefore (now1L / 1440 - 35)) hsd
      (now1L / 1440) (mondayOnOrBefore_shift (now1L / 1440))
      (allocMaps (summaryIntervals tz ov (history.filter (fun e =>
        (e.event_type == EventType.In || e.event_type == EventType.Out) &&
          decide (mondayOnOrBefore (now1L / 1440 - 35) * 1440 - tz.initOffset ≤ e.clock)))
        now2L)).2
    have hsorted0 := halloc.2.2.2.1 (by simp [keysOf_nil])
    have hsorted := wsort hsorted0
    have hnodup : (keysOf (fillWeeks (isoWeekOf (now1L / 1440)) 10
        (isoWeekOf (mondayOnOrBefore (now1L / 1440 - 35)))
        (allocMaps (summaryIntervals tz ov (history.filter (fun e =>
          (e.event_type == EventType.In || e.event_type == EventType.Out) &&
            decide (mondayOnOrBefore (now1L / 1440 - 35) * 1440 - tz.initOffset ≤ e.clock)))
          now2L)).2)).Nodup :=
      hsorted.imp (fun h => wLt_ne h)
    have hndLW : ((List.range 6).map
        (fun k : Nat => isoWeekOf (mondayOnOrBefore (now1L / 1440 - 35) + 7 * (k : Int)))).Nodup := by
      have hpw : List.Pairwise
          (fun a b : Nat => wLt
            (isoWeekOf (mondayOnOrBefore (now1L / 1440 - 35) + 7 * (a : Int)))
            (isoWeekOf (mondayOnOrBefore (now1L / 1440 - 35) + 7 * (b : Int))))
          (List.range 6) := by
        refine (List.pairwise_lt_range 6).imp ?_
        intro a b hab
        exact isoWeek_strict_mono _ hsd (by omega)
      have hpw2 := (List.pairwise_map.mpr hpw :
        List.Pairwise wLt ((List.range 6).map
          (fun k : Nat => isoWeekOf (mondayOnOrBefore (now1L / 1440 - 35) + 7 * (k : Int)))))
      exact hpw2.imp (fun h => wLt_ne h)
    have hmemW : ∀ x, x ∈ keysOf (fillWeeks (isoWeekOf (now1L / 1440)) 10
        (isoWeekOf (mondayOnOrBefore (now1L / 1440 - 35)))
        (allocMaps (summaryIntervals tz ov (history.filter (fun e =>
          (e.event_type == EventType.In || e.event_type == EventType.Out) &&
            decide (mondayOnOrBefore (now1L / 1440 - 35) * 1440 - tz.initOffset ≤ e.clock)))
          now2L)).2) ↔
        x ∈ (List.range 6).map
          (fun k : Nat => isoWeekOf (mondayOnOrBefore (now1L / 1440 - 35) + 7 * (k : Int))) := by
      intro x
      rw [wmem x]
      constructor
      · rintro (hx | ⟨k, h0, h5, rfl⟩)
        · -- an allocated week key: comes from an interval start inside the window
          unfold allocMaps at hx
          rw [halloc.2.1 x] at hx
          rcases hx with hx | ⟨i, hi, rfl⟩
          · simp [keysOf_nil] at hx
          · obtain ⟨a, ha, hstart⟩ := summaryIntervals_start tz ov _ now2L i hi
            obtain ⟨hah, hap⟩ := List.mem_filter.mp ha
            have hpred : mondayOnOrBefore (now1L / 1440 - 35) * 1440 - tz.initOffset ≤
                a.clock := by
              simp only [Bool.and_eq_true, decide_eq_true_eq] at hap
              exact hap.2
            have hloc : to_local tz a.clock = a.clock + tz.initOffset := by
              unfold to_local
              rw [hoff]
            have hup : to_local tz a.clock ≤ now1L := hle a hah
            have hlo : mondayOnOrBefore (now1L / 1440 - 35) ≤ i.start / 1440 := by
              rw [hstart, hloc]
              omega
            have hhi : i.start / 1440 ≤ mondayOnOrBefore (now1L / 1440 - 35) + 41 := by
              rw [hstart]
              have : mondayOnOrBefore (now1L / 1440 - 35) ≥ now1L / 1440 - 41 := by
                unfold mondayOnOrBefore
                omega
              omega
            obtain ⟨k, h0, h5, heq⟩ := isoWeekOf_in_window hsd hlo hhi
            rw [heq]
            refine List.mem_map.mpr ⟨k.toNat, List.mem_range.mpr (by omega), ?_⟩
            rw [Int.toNat_of_nonneg h0]
        · refine List.mem_map.mpr ⟨k.toNat, List.mem_range.mpr (by omega), ?_⟩
          rw [Int.toNat_of_nonneg h0]
      · intro hx
        obtain ⟨k, hk, rfl⟩ := List.mem_map.mp hx
        have hk6 : k < 6 := List.mem_range.mp hk
        exact Or.inr ⟨(k : Int), by omega, by omega, rfl⟩
    have hlen := nodup_mem_length_eq hnodup hndLW hmemW
    rw [List.length_map, List.length_range] at hlen
    calc (fillWeeks (isoWeekOf (now1L / 1440)) 10
        (isoWeekOf (mondayOnOrBefore (now1L / 1440 - 35)))
        (allocMaps (summaryIntervals tz ov (history.filter (fun e =>
          (e.event_type == EventType.In || e.event_type == EventType.Out) &&
            decide (mondayOnOrBefore (now1L / 1440 - 35) * 1440 - tz.initOffset ≤ e.clock)))
          now2L)).2).length
        = (keysOf (fillWeeks (isoWeekOf (now1L / 1440)) 10
            (isoWeekOf (mondayOnOrBefore (now1L / 1440 - 35)))
            (allocMaps (summaryIntervals tz ov (history.filter (fun e =>
              (e.event_type == EventType.In || e.event_type == EventType.Out) &&
                decide (mondayOnOrBefore (now1L / 1440 - 35) * 1440 - tz.initOffset ≤
                  e.clock))) now2L)).2)).length := (List.length_map _ _).symm
      _ = 6 := hlen

/-- Counterexample to C7 as stated: a stored event with an instant one week
after the evaluation instant (day 105, while today is day 98) contributes a
seventh ISO-week bucket, so the weeks list has 7 entries, not 6. -/
theorem C7_counterexample :
    weeksLengthOf (summary_report ⟨0, []⟩ [⟨.In, 105 * 1440⟩] 0 (98 * 1440) 0) = 7 ∧
    (7 : Nat) ≠ 6 := by
  constructor
  · decide
  · decide

theorem ok_reportOf (x : Except DatabaseError SummaryReport) (h : isOkReport x = true) :
    x = .ok (reportOf x) := by
  cases x
  · simp [isOkReport] at h
  · rfl

theorem daysLengthOf_reportOf (x : Except DatabaseError SummaryReport)
    (h : isOkReport x = true) : daysLengthOf x = (reportOf x).days.length := by
  cases x
  · simp [isOkReport] at h
  · rfl

/-- Witness for C7: the unconditional day count holds on a history
containing an event after the evaluation instant (today is the Monday
day 98, so one day bucket survives the trim), and the week count holds on a
concrete constant-offset input. -/
theorem C7_witness :
    daysLengthOf (summary_report ⟨0, []⟩ [⟨.In, 105 * 1440⟩] 0 (98 * 1440) 0) = 1 ∧
    weeksLengthOf (summary_report ⟨0, []⟩ [] 0 141120 0) = 6 := by
  constructor
  · have hb : isOkReport (summary_report ⟨0, []⟩ [⟨.In, 105 * 1440⟩] 0 (98 * 1440) 0) =
        true := by decide
    have hd := (C7_theorem ⟨0, []⟩ [⟨.In, 105 * 1440⟩] 0 (98 * 1440) 0).1 _
      (ok_reportOf _ hb)
    rw [daysLengthOf_reportOf _ hb, hd]
    decide
  · obtain ⟨r, hok, hw⟩ := (C7_theorem ⟨0, []⟩ [] 0 141120 0).2 (by simp [SortedTZ])
      (fun u => rfl) (by simp)
    unfold weeksLengthOf
    rw [hok]
    exact hw

end Punch
